import Mathlib

/-!
# A shallow embedding of the `cjson-bindings` serializer/deserializer bridge

This file embeds, in Lean, the core of the `cjson-bindings` Rust crate:

* the `CJsonError` taxonomy and the safe wrapper operations over the cJSON
  tree (`src/cjson.rs`), with the tree itself modelled as the inductive
  `JNode` (cJSON numbers are C doubles; we model their values as exact
  rationals, and model the two lossy double casts of the Rust code --
  `u64 as f64` on the serializer side and `f64 as uN/iN` on the
  deserializer side -- as explicit rounding/truncating functions);
* the serializer state machine (`src/ser.rs`): `JsonSerializer` holds a
  `BTreeMap<String, CJson>` of open containers plus a `Vec<String>` name
  stack.  The map values are pointers that alias into the tree being
  built, so the embedding represents them as paths into a list of root
  trees, and the `BTreeMap` as a key-sorted association list;
* the deserializer state machine (`src/de.rs`): `JsonDeserializer` holds
  owned deep copies, so its map is simply an association list of trees;
* the bridge functions.  `to_json` (src/lib.rs) is embedded up to the
  trusted cJSON text printer: its result here is the tree that the real
  function prints; `from_json` is declared by the crate and used by the
  tests and examples but its body is not part of `src/`, so it is
  modelled from the spec (see `fromJsonTree`); likewise the per-type
  visiting operation (the `osal_rs_serde` derive) is external to the
  crate and is modelled from the spec over an explicit universe `Ty` /
  `TVal` of supported record shapes (see `serVisit` / `deVisit`).

All definitions are executable; theorems about concrete runs reduce by
`rfl`/`decide`.
-/

namespace CJB

/-- Reduce `Except.ok a >>= f` (the `do`-notation bind) to `f a`. -/
@[simp] theorem ebind_ok {α β ε : Type} (a : α) (f : α → Except ε β) :
    (Except.ok a >>= f) = f a := rfl

/-- An errored `Except` short-circuits the bind. -/
@[simp] theorem ebind_err {α β ε : Type} (e : ε) (f : α → Except ε β) :
    ((Except.error e : Except ε α) >>= f) = .error e := rfl

/-- `Except.map` on a success. -/
@[simp] theorem emap_ok {α β ε : Type} (a : α) (f : α → β) :
    (Except.ok a : Except ε α).map f = .ok (f a) := rfl

/-- `Except.map` on an error. -/
@[simp] theorem emap_err {α β ε : Type} (e : ε) (f : α → β) :
    (Except.error e : Except ε α).map f = .error e := rfl

/-! ## Error taxonomy (src/cjson.rs, `enum CJsonError`) -/

/-- The error kinds of `src/cjson.rs`. -/
inductive CJsonError where
  | parseError
  | nullPointer
  | invalidUtf8
  | notFound
  | typeError
  | allocationError
  | invalidOperation
  deriving DecidableEq, Repr

/-! ## Strings

The Rust code goes through `CString::new` (which rejects interior NUL
bytes) before handing keys and values to cJSON, and cJSON's
`cJSON_GetObjectItem` compares keys case-insensitively with a C-locale
`tolower`.  Rust's `String` ordering (used by the `BTreeMap` of the
serializer/deserializer stacks) is byte-wise lexicographic on UTF-8,
which coincides with code-point-wise lexicographic order. -/

/-- Does the string contain a NUL character (`CString::new` failure)? -/
def hasNul (s : String) : Bool := s.data.any (fun c => c.toNat == 0)

/-- ASCII lower-casing, as C-locale `tolower` acts on bytes. -/
def lowerChar (c : Char) : Char :=
  if 'A' ≤ c ∧ c ≤ 'Z' then Char.ofNat (c.toNat + 32) else c

/-- Case-insensitive string equality (cJSON object-key lookup). -/
def ciEq (a b : String) : Bool :=
  a.data.map lowerChar == b.data.map lowerChar

/-- Lexicographic order on character lists by code point. -/
def strLtL : List Char → List Char → Bool
  | [], [] => false
  | [], _ :: _ => true
  | _ :: _, [] => false
  | a :: as, b :: bs =>
      if a.toNat < b.toNat then true
      else if b.toNat < a.toNat then false
      else strLtL as bs

/-- Rust `String` ordering (byte-wise = code-point-wise lexicographic). -/
def strLt (a b : String) : Bool := strLtL a.data b.data

/-- A character a Rust identifier may contain. -/
def identChar (c : Char) : Bool :=
  ('a' ≤ c && c ≤ 'z') || ('A' ≤ c && c ≤ 'Z') || ('0' ≤ c && c ≤ '9') || c == '_'

/-- The shape of a Rust struct-field name: nonempty, made of identifier
characters (so in particular free of NUL, of `[` and of `]`). -/
def identLike (s : String) : Bool := !(s == "") && s.data.all identChar

/-! ## The `BTreeMap<String, _>` model

A key-sorted association list: `insertB` replaces the value of an
existing key (as `BTreeMap::insert` does) and otherwise inserts in key
order, so the head of the list is the map's first (smallest) entry,
which is what `BTreeMap::first_entry` returns. -/

/-- `BTreeMap::insert` (replace on equal key, else keep sorted). -/
def insertB {α : Type} : List (String × α) → String → α → List (String × α)
  | [], k, v => [(k, v)]
  | (k', v') :: rest, k, v =>
      if k = k' then (k, v) :: rest
      else if strLt k k' then (k, v) :: (k', v') :: rest
      else (k', v') :: insertB rest k v

/-- `BTreeMap::get`. -/
def lookupB {α : Type} : List (String × α) → String → Option α
  | [], _ => none
  | (k', v') :: rest, k => if k' = k then some v' else lookupB rest k

/-- `BTreeMap::remove` (drop the entry with the given key). -/
def eraseB {α : Type} (m : List (String × α)) (k : String) : List (String × α) :=
  m.filter (fun kv => !(kv.1 == k))

/-! ## The JSON tree (the external cJSON node model)

`src/cjson.rs` wraps a heap tree of tagged nodes.  Numbers carry a C
double; we model the carried value as an exact rational.  An object's
fields are an ordered list of key/child pairs (cJSON allows duplicate
keys; `cJSON_AddItemToObject` appends, lookup returns the first
case-insensitive match). -/

/-- A cJSON tree node. -/
inductive JNode where
  | jnull
  | jbool (b : Bool)
  | jnum (q : ℚ)
  | jstr (s : String)
  | jarr (items : List JNode)
  | jobj (fields : List (String × JNode))

/-- `cJSON_IsArray`. -/
def JNode.isArray : JNode → Bool
  | .jarr _ => true
  | _ => false

/-- `cJSON_IsObject`. -/
def JNode.isObject : JNode → Bool
  | .jobj _ => true
  | _ => false

/-- `cJSON_IsNumber`. -/
def JNode.isNumber : JNode → Bool
  | .jnum _ => true
  | _ => false

/-- `cJSON_IsString`. -/
def JNode.isString : JNode → Bool
  | .jstr _ => true
  | _ => false

/-- First case-insensitive match among an object's fields
(`cJSON_GetObjectItem` behaviour). -/
def getField : List (String × JNode) → String → Option JNode
  | [], _ => none
  | (k, x) :: rest, key => if ciEq k key then some x else getField rest key

/-- `CJson::get_bool_value` (src/cjson.rs): requires a Bool node. -/
def JNode.get_bool_value : JNode → Except CJsonError Bool
  | .jbool b => .ok b
  | _ => .error .typeError

/-- `CJson::get_number_value`: requires a Number node. -/
def JNode.get_number_value : JNode → Except CJsonError ℚ
  | .jnum q => .ok q
  | _ => .error .typeError

/-- `CJson::get_string_value`: requires a String node. -/
def JNode.get_string_value : JNode → Except CJsonError String
  | .jstr s => .ok s
  | _ => .error .typeError

/-- `CJson::get_object_item`: object check, then `CString` key check,
then first case-insensitive match (absent key is `NotFound`). -/
def JNode.get_object_item (t : JNode) (key : String) : Except CJsonError JNode :=
  match t with
  | .jobj fs =>
      if hasNul key then .error .invalidUtf8
      else
        match getField fs key with
        | some x => .ok x
        | none => .error .notFound
  | _ => .error .typeError

/-! ## Numeric casts

cJSON stores every number as a C double.  The Rust bridge converts with
`as` casts; their IEEE-754 semantics are modelled exactly on ℚ:

* `uN as f64` / `iN as f64` rounds to the nearest 53-bit significand,
  ties to even (`f64ofNat` / `f64ofInt`); values of magnitude at most
  `2^53` convert exactly;
* `f64 as u64` / `f64 as i64` truncates toward zero and saturates at the
  destination's bounds (`castU64` / `castI64`, and `castI32` for the
  `valueint` field that cJSON itself saturates);
* `f64 as f32` rounds to the nearest 24-bit significand, ties to even,
  with the subnormal quantum floor at `2^(-149)` (`castF32`; the finite
  overflow-to-infinity edge cannot arise from an `f32`-valued field and
  is left unmodelled). -/

/-- Truncation toward zero of a rational. -/
def truncQ (q : ℚ) : ℤ := if 0 ≤ q then ⌊q⌋ else -⌊-q⌋

/-- Rust `f64 as u64`: truncate toward zero, saturate into `[0, 2^64)`. -/
def castU64 (q : ℚ) : ℕ := min (truncQ q).toNat (2 ^ 64 - 1)

/-- Rust `f64 as i64`: truncate toward zero, saturate into the `i64` range. -/
def castI64 (q : ℚ) : ℤ := max (-(2 ^ 63)) (min (truncQ q) (2 ^ 63 - 1))

/-- The saturated `(int)` cast cJSON applies to fill a node's `valueint`. -/
def castI32 (q : ℚ) : ℤ := max (-(2 ^ 31)) (min (truncQ q) (2 ^ 31 - 1))

/-- Fuel-driven binary logarithm (the fuel makes it reduce inside the
kernel; with fuel `n` it agrees with `Nat.log2`). -/
def log2fuel : ℕ → ℕ → ℕ
  | 0, _ => 0
  | fuel + 1, n => if 2 ≤ n then log2fuel fuel (n / 2) + 1 else 0

/-- `Nat.log2`, computably for the kernel. -/
def nlog2 (n : ℕ) : ℕ := log2fuel n n

/-- `uN as f64`: round to 53 significant bits, ties to even.  Exact for
`n ≤ 2^53`; for larger `n` the low `log2 n - 52` bits are rounded away. -/
def f64ofNat (n : ℕ) : ℚ :=
  if n ≤ 2 ^ 53 then (n : ℚ)
  else
    let e := nlog2 n - 52
    let q := n / 2 ^ e
    let r := n % 2 ^ e
    let q2 :=
      if 2 * r < 2 ^ e then q
      else if 2 ^ e < 2 * r then q + 1
      else if q % 2 = 0 then q else q + 1
    ((q2 * 2 ^ e : ℕ) : ℚ)

/-- `iN as f64` (IEEE rounding is symmetric in sign). -/
def f64ofInt (z : ℤ) : ℚ := if z < 0 then -(f64ofNat z.natAbs) else f64ofNat z.natAbs

/-- Is `2^e ≤ n/d` (for `n, d > 0`), by integer comparison. -/
def pow2le (e : ℤ) (n d : ℕ) : Bool :=
  if 0 ≤ e then decide (2 ^ e.toNat * d ≤ n) else decide (d ≤ 2 ^ (-e).toNat * n)

/-- For `n, d > 0`, the greatest `e` with `2^e ≤ n/d` (binary exponent
of the positive rational `n/d`). -/
def qlog2nd (n d : ℕ) : ℤ :=
  let e0 : ℤ := (nlog2 n : ℤ) - (nlog2 d : ℤ) - 1
  let e1 := if pow2le (e0 + 1) n d then e0 + 1 else e0
  if pow2le (e1 + 1) n d then e1 + 1 else e1

/-- Round `a / b` (for `b > 0`) to the nearest natural, ties to even. -/
def rdivHalfEven (a b : ℕ) : ℕ :=
  let f := a / b
  let r := a % b
  if 2 * r < b then f
  else if b < 2 * r then f + 1
  else if f % 2 = 0 then f else f + 1

/-- Rust `f64 as f32`: round to 24 significant bits, ties to even, with
the IEEE single-precision subnormal quantum floor `2^(-149)`.  The
rounded significand is built in integer arithmetic on the rational's
numerator and denominator: the unit in the last place is `2^k` with
`k = max (e - 23) (-149)`, and the result is `round(|q| / 2^k) * 2^k`
with the sign restored. -/
def castF32 (q : ℚ) : ℚ :=
  if q = 0 then 0
  else
    let n := q.num.natAbs
    let d := q.den
    let k := max (qlog2nd n d - 23) (-149)
    let m : ℕ :=
      if 0 ≤ k then rdivHalfEven n (d * 2 ^ k.toNat)
      else rdivHalfEven (n * 2 ^ (-k).toNat) d
    let mz : ℤ := if q < 0 then -(m : ℤ) else (m : ℤ)
    if 0 ≤ k then Rat.divInt (mz * 2 ^ k.toNat) 1 else Rat.divInt mz (2 ^ (-k).toNat)

/-! ## Hexadecimal byte-buffer text (src/ser.rs `serialize_bytes`,
src/de.rs `deserialize_bytes`) -/

/-- One lowercase hex digit. -/
def hexDigitChar (n : ℕ) : Char :=
  if n < 10 then Char.ofNat ('0'.toNat + n) else Char.ofNat ('a'.toNat + (n - 10))

/-- Rust `format!("{:02x}", byte)` for a byte (two lowercase digits). -/
def byteHex (b : ℕ) : List Char := [hexDigitChar (b / 16 % 16), hexDigitChar (b % 16)]

/-- The hex encoding `serialize_bytes` builds, two characters per byte,
no separators, no prefix. -/
def hexStr (bs : List ℕ) : String := String.mk (bs.flatMap byteHex)

/-- Numeric value of a hex digit (ASCII, either case). -/
def hexVal (c : Char) : ℕ :=
  if '0' ≤ c ∧ c ≤ '9' then c.toNat - '0'.toNat
  else if 'a' ≤ c ∧ c ≤ 'f' then c.toNat - 'a'.toNat + 10
  else if 'A' ≤ c ∧ c ≤ 'F' then c.toNat - 'A'.toNat + 10
  else 0

/-- Decode hex-digit pairs into bytes, stopping at the buffer capacity. -/
def hexPairs : List Char → ℕ → List ℕ
  | _, 0 => []
  | c1 :: c2 :: rest, cap + 1 => (16 * hexVal c1 + hexVal c2) :: hexPairs rest cap
  | _, _ => []

/-- Modelled from the spec: `hex_to_bytes_into_slice`, a utility of the
external `osal_rs` crate (not part of this repository's `src/`).  Per
the spec it decodes the hexadecimal text into the destination buffer,
the destination length capping the copy; `deserialize_bytes` only calls
it on even-length all-hex-digit strings. -/
def hexToBytesCapped (s : String) (cap : ℕ) : List ℕ := hexPairs s.data cap

/-- Rust `char::is_ascii_hexdigit`. -/
def isAsciiHexDigit (c : Char) : Bool :=
  ('0' ≤ c && c ≤ '9') || ('a' ≤ c && c ≤ 'f') || ('A' ≤ c && c ≤ 'F')

/-- The `deserialize_bytes` hex guard: even length, nonempty, all ASCII
hex digits (`is_ascii_hexdigit`). -/
def isHexCheck (s : String) : Bool :=
  s.length % 2 == 0 && decide (0 < s.length) && s.data.all isAsciiHexDigit

/-- The UTF-8 fallback copy of `deserialize_bytes`: raw bytes of the
string (`s.as_bytes()`), capped by the buffer length. -/
def utf8Copy (s : String) (cap : ℕ) : List ℕ :=
  ((s.data.flatMap String.utf8EncodeChar).map (fun b => b.toNat)).take cap

/-! ## Paths into a tree

The serializer's `BTreeMap<String, CJson>` stores aliasing pointers into
the tree under construction; a pointer is represented by the index of
its root tree together with the path from that root. -/

/-- One step into a tree: a field position of an object, or an element
position of an array. -/
inductive PStep where
  | ofld (i : ℕ)
  | aidx (i : ℕ)
  deriving DecidableEq, Repr

/-- A pointer path. -/
abbrev Path := List PStep

/-- The child of a node at one step. -/
def child : JNode → PStep → Option JNode
  | .jobj fs, .ofld i => (fs.get? i).map (fun kv => kv.2)
  | .jarr xs, .aidx i => xs.get? i
  | _, _ => none

/-- Replace the child of a node at one step (no-op on a mismatch). -/
def setChild : JNode → PStep → JNode → JNode
  | .jobj fs, .ofld i, x =>
      match fs.get? i with
      | some kv => .jobj (fs.set i (kv.1, x))
      | none => .jobj fs
  | .jarr xs, .aidx i, x => .jarr (xs.set i x)
  | t, _, _ => t

/-- Follow a path. -/
def getP : Path → JNode → Option JNode
  | [], t => some t
  | st :: p, t => (child t st).bind (getP p)

/-- Rewrite the subtree at the end of a path (no-op if the path dangles). -/
def mapAtP : Path → (JNode → JNode) → JNode → JNode
  | [], f, t => f t
  | st :: p, f, t =>
      match child t st with
      | some c => setChild t st (mapAtP p f c)
      | none => t

/-- Replace the subtree at the end of a path. -/
def updP (p : Path) (x : JNode) (t : JNode) : JNode := mapAtP p (fun _ => x) t

/-- The synthesized unique context key for the element of an array:
`format!("{}[{}]", parent, index)`, built identically by
`serialize_struct_start` (src/ser.rs:273) and `deserialize_vec`
(src/de.rs:192). -/
def elemKey (parent : String) (i : ℕ) : String := parent ++ "[" ++ toString i ++ "]"

/-- In-place mutation through an aliasing pointer: append an element to
the array a node holds (`cJSON_AddItemToArray`). -/
def appendA (x : JNode) : JNode → JNode
  | .jarr xs => .jarr (xs ++ [x])
  | t => t

/-- Append a keyed field to the object a node holds
(`cJSON_AddItemToObject` appends; duplicate keys are not replaced). -/
def appendO (k : String) (x : JNode) : JNode → JNode
  | .jobj fs => .jobj (fs ++ [(k, x)])
  | t => t

/-! ## The serializer state machine (src/ser.rs, `JsonSerializer`)

`stack : BTreeMap<String, CJson>` maps a context name to an aliasing
pointer into a tree being built; `stack_name : Vec<String>` is the name
stack, its `last()` the current context.  Here `stack_name` is a list
whose head is the Rust vector's last element (push = cons, pop = tail),
and a pointer is a root index plus a path.  New roots are only ever
created by the root case of `serialize_struct_start`. -/

/-- The `JsonSerializer` state. -/
structure SerState where
  roots : List JNode
  stack : List (String × ℕ × Path)
  stack_name : List String

/-- Dereference an aliasing pointer. -/
def resolveRP (s : SerState) (rp : ℕ × Path) : Option JNode :=
  (s.roots.get? rp.1).bind (getP rp.2)

/-- Rewrite the tree under an aliasing pointer (mutation through the
pointer; every other pointer into the same tree observes it). -/
def updAtRP (s : SerState) (rp : ℕ × Path) (f : JNode → JNode) : SerState :=
  { s with
    roots :=
      match s.roots.get? rp.1 with
      | some r => s.roots.set rp.1 (mapAtP rp.2 f r)
      | none => s.roots }

/-- `JsonSerializer::get_current_object`: the map entry named by the top
of the name stack; `InvalidOperation` when either is missing. -/
def getCurrentRP (s : SerState) : Except CJsonError (ℕ × Path) :=
  match s.stack_name with
  | [] => .error .invalidOperation
  | n :: _ =>
      match lookupB s.stack n with
      | some rp => .ok rp
      | none => .error .invalidOperation

/-- The shared body of every `serialize_<scalar>` of src/ser.rs: fetch
the current container; if it is an array, append the value positionally
(the name is ignored); otherwise add it to the object under the name
(`add_*_to_object`, which checks the container is an object and the key
survives `CString::new`).  `valueBad` is the `CString` failure of a
string-valued node's creation. -/
def writeScalar (s : SerState) (name : String) (node : JNode) (valueBad : Bool) :
    Except CJsonError SerState := do
  let rp ← getCurrentRP s
  match resolveRP s rp with
  | none => .error .invalidOperation
  | some cont =>
    if cont.isArray then
      if valueBad then .error .invalidUtf8
      else .ok (updAtRP s rp (appendA node))
    else if !cont.isObject then .error .typeError
    else if hasNul name then .error .invalidUtf8
    else if valueBad then .error .invalidUtf8
    else .ok (updAtRP s rp (appendO name node))

/-- `serialize_bool`. -/
def serialize_bool (s : SerState) (name : String) (v : Bool) : Except CJsonError SerState :=
  writeScalar s name (.jbool v) false

/-- `serialize_u8` (`v as f64` is exact below `2^53`). -/
def serialize_u8 (s : SerState) (name : String) (v : ℕ) : Except CJsonError SerState :=
  writeScalar s name (.jnum v) false

/-- `serialize_u16`. -/
def serialize_u16 (s : SerState) (name : String) (v : ℕ) : Except CJsonError SerState :=
  writeScalar s name (.jnum v) false

/-- `serialize_u32`. -/
def serialize_u32 (s : SerState) (name : String) (v : ℕ) : Except CJsonError SerState :=
  writeScalar s name (.jnum v) false

/-- `serialize_u64`: the value goes through `v as f64`. -/
def serialize_u64 (s : SerState) (name : String) (v : ℕ) : Except CJsonError SerState :=
  writeScalar s name (.jnum (f64ofNat v)) false

/-- `serialize_u128`: also `v as f64`. -/
def serialize_u128 (s : SerState) (name : String) (v : ℕ) : Except CJsonError SerState :=
  writeScalar s name (.jnum (f64ofNat v)) false

/-- `serialize_i8`. -/
def serialize_i8 (s : SerState) (name : String) (v : ℤ) : Except CJsonError SerState :=
  writeScalar s name (.jnum v) false

/-- `serialize_i16`. -/
def serialize_i16 (s : SerState) (name : String) (v : ℤ) : Except CJsonError SerState :=
  writeScalar s name (.jnum v) false

/-- `serialize_i32`. -/
def serialize_i32 (s : SerState) (name : String) (v : ℤ) : Except CJsonError SerState :=
  writeScalar s name (.jnum v) false

/-- `serialize_i64`: the value goes through `v as f64`. -/
def serialize_i64 (s : SerState) (name : String) (v : ℤ) : Except CJsonError SerState :=
  writeScalar s name (.jnum (f64ofInt v)) false

/-- `serialize_i128`: also `v as f64`. -/
def serialize_i128 (s : SerState) (name : String) (v : ℤ) : Except CJsonError SerState :=
  writeScalar s name (.jnum (f64ofInt v)) false

/-- `serialize_f32` (`v as f64` is exact on every finite `f32`). -/
def serialize_f32 (s : SerState) (name : String) (v : ℚ) : Except CJsonError SerState :=
  writeScalar s name (.jnum v) false

/-- `serialize_f64`. -/
def serialize_f64 (s : SerState) (name : String) (v : ℚ) : Except CJsonError SerState :=
  writeScalar s name (.jnum v) false

/-- `serialize_str` / `serialize_string`. -/
def serialize_str (s : SerState) (name : String) (v : String) : Except CJsonError SerState :=
  writeScalar s name (.jstr v) (hasNul v)

/-- `serialize_bytes`: hex-encode, then write the text like a string. -/
def serialize_bytes (s : SerState) (name : String) (v : List ℕ) : Except CJsonError SerState :=
  writeScalar s name (.jstr (hexStr v)) (hasNul (hexStr v))

/-- The root case of `serialize_struct_start ""`: push a fresh empty
object as a new root under the reserved empty name. -/
def serRootCase (s : SerState) : SerState :=
  { roots := s.roots ++ [.jobj []],
    stack := insertB s.stack "" (s.roots.length, []),
    stack_name := "" :: s.stack_name }

/-- `serialize_struct_start` (src/ser.rs:261): with an empty name, if
the current container is an array this is an array element -- append a
fresh object positionally and push it under the synthesized unique key
`last_name ++ "[" ++ index ++ "]"`; in every other empty-name situation
fall through to the root case.  With a nonempty name, add a fresh object
under that name to the current object and push the name. -/
def serialize_struct_start (s : SerState) (name : String) : Except CJsonError SerState :=
  if name = "" then
    match s.stack_name with
    | [] => .ok (serRootCase s)
    | last :: _ =>
      match lookupB s.stack last with
      | none => .ok (serRootCase s)
      | some rp =>
        match resolveRP s rp with
        | some (.jarr xs) =>
            let key := elemKey last xs.length
            .ok { (updAtRP s rp (appendA (.jobj []))) with
                  stack_name := key :: s.stack_name,
                  stack := insertB s.stack key (rp.1, rp.2 ++ [.aidx xs.length]) }
        | _ => .ok (serRootCase s)
  else
    match s.stack_name with
    | [] => .error .invalidOperation
    | last :: _ =>
      match lookupB s.stack last with
      | none => .error .invalidOperation
      | some rp =>
        match resolveRP s rp with
        | some (.jobj fs) =>
            if hasNul name then .error .invalidUtf8
            else
              .ok { (updAtRP s rp (appendO name (.jobj []))) with
                    stack_name := name :: s.stack_name,
                    stack := insertB s.stack name (rp.1, rp.2 ++ [.ofld fs.length]) }
        | some _ => .error .typeError
        | none => .error .invalidOperation

/-- `serialize_struct_end` (src/ser.rs:309): `self.stack_name.pop()`
unconditionally, always `Ok` (popping an empty vector is a no-op). -/
def serialize_struct_end (s : SerState) : Except CJsonError SerState :=
  .ok { s with stack_name := s.stack_name.tail }

/-- The shared body of `serialize_vec` / `serialize_array`
(src/ser.rs:211 and 236 are textually identical): create an array node,
add it under the name to the current container (`add_item_to_object`,
so an array or non-object parent is a `TypeError`), push the name.  The
caller then serializes each element with an empty name and pops. -/
def serialize_seq_start (s : SerState) (name : String) : Except CJsonError SerState := do
  let rp ← getCurrentRP s
  match resolveRP s rp with
  | none => .error .invalidOperation
  | some (.jobj fs) =>
      if hasNul name then .error .invalidUtf8
      else
        .ok { (updAtRP s rp (appendO name (.jarr []))) with
              stack_name := name :: s.stack_name,
              stack := insertB s.stack name (rp.1, rp.2 ++ [.ofld fs.length]) }
  | some _ => .error .typeError

/-! ## The deserializer state machine (src/de.rs, `JsonDeserializer`)

The dual structure; its map entries are owned deep copies
(`cJSON_Duplicate(ptr, 1)`), so they are plain trees. -/

/-- The `JsonDeserializer` state. -/
structure DeState where
  stack : List (String × JNode)
  stack_name : List String

/-- `JsonDeserializer::get_item` (src/de.rs:279): resolve the current
context entry; an empty name is the context node itself, otherwise the
named field of the context object. -/
def deGetItem (s : DeState) (name : String) : Except CJsonError JNode :=
  match s.stack_name with
  | [] => .error .invalidOperation
  | cur :: _ =>
    match lookupB s.stack cur with
    | none => .error .invalidOperation
    | some container =>
      if name = "" then .ok container
      else container.get_object_item name

/-- `deserialize_bool`. -/
def deserialize_bool (s : DeState) (name : String) : Except CJsonError Bool := do
  let item ← deGetItem s name
  item.get_bool_value

/-- `deserialize_u64` (src/de.rs:82): a Number node, negative is a
`TypeError`, then `n as u64` -- no upper-bound check beyond the
saturating cast. -/
def deserialize_u64 (s : DeState) (name : String) : Except CJsonError ℕ := do
  let item ← deGetItem s name
  let n ← item.get_number_value
  if n < 0 then .error .typeError else .ok (castU64 n)

/-- `deserialize_i64`: a Number node, then `n as i64`. -/
def deserialize_i64 (s : DeState) (name : String) : Except CJsonError ℤ := do
  let item ← deGetItem s name
  let n ← item.get_number_value
  .ok (castI64 n)

/-- `deserialize_u8`: through the 64-bit read, then a range check. -/
def deserialize_u8 (s : DeState) (name : String) : Except CJsonError ℕ := do
  let v ← deserialize_u64 s name
  if v ≤ 2 ^ 8 - 1 then .ok v else .error .typeError

/-- `deserialize_u16`. -/
def deserialize_u16 (s : DeState) (name : String) : Except CJsonError ℕ := do
  let v ← deserialize_u64 s name
  if v ≤ 2 ^ 16 - 1 then .ok v else .error .typeError

/-- `deserialize_u32`. -/
def deserialize_u32 (s : DeState) (name : String) : Except CJsonError ℕ := do
  let v ← deserialize_u64 s name
  if v ≤ 2 ^ 32 - 1 then .ok v else .error .typeError

/-- `deserialize_i8`. -/
def deserialize_i8 (s : DeState) (name : String) : Except CJsonError ℤ := do
  let v ← deserialize_i64 s name
  if -(2 ^ 7) ≤ v ∧ v ≤ 2 ^ 7 - 1 then .ok v else .error .typeError

/-- `deserialize_i16`. -/
def deserialize_i16 (s : DeState) (name : String) : Except CJsonError ℤ := do
  let v ← deserialize_i64 s name
  if -(2 ^ 15) ≤ v ∧ v ≤ 2 ^ 15 - 1 then .ok v else .error .typeError

/-- `deserialize_i32`. -/
def deserialize_i32 (s : DeState) (name : String) : Except CJsonError ℤ := do
  let v ← deserialize_i64 s name
  if -(2 ^ 31) ≤ v ∧ v ≤ 2 ^ 31 - 1 then .ok v else .error .typeError

/-- `deserialize_u128` (src/de.rs:95): exactly the 64-bit read, widened. -/
def deserialize_u128 (s : DeState) (name : String) : Except CJsonError ℕ :=
  deserialize_u64 s name

/-- `deserialize_i128`: exactly the 64-bit read, widened. -/
def deserialize_i128 (s : DeState) (name : String) : Except CJsonError ℤ :=
  deserialize_i64 s name

/-- `deserialize_f32`: a Number node, then `n as f32`. -/
def deserialize_f32 (s : DeState) (name : String) : Except CJsonError ℚ := do
  let item ← deGetItem s name
  let n ← item.get_number_value
  .ok (castF32 n)

/-- `deserialize_f64`. -/
def deserialize_f64 (s : DeState) (name : String) : Except CJsonError ℚ := do
  let item ← deGetItem s name
  item.get_number_value

/-- The textual form `write!("{}", n)` gives an `f64` in the Number
branch of `deserialize_string`.  No claim depends on this branch; the
decimal shortest-form rendering of the double is approximated by the
rational's own components. -/
def displayNum (q : ℚ) : String :=
  if q.den = 1 then toString q.num else toString q.num ++ "/" ++ toString q.den

/-- `deserialize_string` (src/de.rs:160): a String node verbatim, a
Number node through its textual form, anything else a `TypeError`. -/
def deserialize_string (s : DeState) (name : String) : Except CJsonError String := do
  let item ← deGetItem s name
  match item with
  | .jstr v => .ok v
  | .jnum n => .ok (displayNum n)
  | _ => .error .typeError

/-- The array branch of `deserialize_bytes`: up to `min size cap`
elements, each `get_int_value()? as i32 as u8` (the saturated cJSON
`valueint`, then the low byte). -/
def arrToBytes : List JNode → ℕ → Except CJsonError (List ℕ)
  | _, 0 => .ok []
  | [], _ + 1 => .ok []
  | x :: rest, cap + 1 =>
      match x with
      | .jnum q => (arrToBytes rest cap).map (fun bs => ((castI32 q).emod 256).toNat :: bs)
      | _ => .error .typeError

/-- `deserialize_bytes` (src/de.rs:116): a String node is hex-decoded
when it passes the hex guard and otherwise copied as raw UTF-8 bytes,
both capped by the buffer length; an Array node is copied elementwise,
capped; anything else is a `TypeError`.  (The modelled hex decoder
cannot fail, so the fall-through to the UTF-8 copy after a decode error
is dead here.) -/
def deserialize_bytes (s : DeState) (name : String) (cap : ℕ) :
    Except CJsonError (List ℕ) := do
  let item ← deGetItem s name
  match item with
  | .jstr v =>
      if isHexCheck v then .ok (hexToBytesCapped v cap)
      else .ok (utf8Copy v cap)
  | .jarr xs => arrToBytes xs cap
  | _ => .error .typeError

/-- `deserialize_struct_start` (src/de.rs:226): an empty name is a no-op
(read from the current context); otherwise find the named field of the
current context object, deep-copy it, and push it under the name
(`BTreeMap::insert`, which silently replaces an existing entry). -/
def deserialize_struct_start (s : DeState) (name : String) : Except CJsonError DeState :=
  if name = "" then .ok s
  else
    match s.stack_name with
    | [] => .error .invalidOperation
    | cur :: _ =>
      match lookupB s.stack cur with
      | none => .error .invalidOperation
      | some container => do
          let item ← container.get_object_item name
          .ok ⟨insertB s.stack name item, name :: s.stack_name⟩

/-- `deserialize_struct_end` (src/de.rs:264): pop the current entry and
remove it from the map, unless at most the root entry remains. -/
def deserialize_struct_end (s : DeState) : Except CJsonError DeState :=
  .ok
    (if 1 < s.stack_name.length then
      match s.stack_name with
      | n :: rest => ⟨eraseB s.stack n, rest⟩
      | [] => s
    else s)

/-- `JsonDeserializer::parse` (src/de.rs:303) after a successful
`CJson::parse`: seed the map with the parsed tree under the reserved
empty root name. -/
def deSeed (tree : JNode) : DeState := ⟨[("", tree)], [""]⟩

/-- `CJson::parse` (src/cjson.rs:130): `CString::new` rejects interior
NUL (`InvalidUtf8`); then the external `cJSON_Parse` runs -- its result
(`raw`, a tree or the null pointer it returns on malformed text) is
passed in as the trusted collaborator's outcome -- and `from_ptr` maps
the null pointer to `NullPointer`. -/
def cjson_parse (json : String) (raw : Option JNode) : Except CJsonError JNode :=
  if hasNul json then .error .invalidUtf8
  else
    match raw with
    | none => .error .nullPointer
    | some t => .ok t

/-- `JsonDeserializer::parse` (src/de.rs:303), full pipeline: parse the
text and seed the root context with the tree. -/
def deserializer_parse (json : String) (raw : Option JNode) : Except CJsonError DeState :=
  (cjson_parse json raw).map deSeed

/-! ## The universe of supported typed values and the visiting operation

A typed value is driven through the protocol by its per-type visiting
operation (the `osal_rs_serde` derive).  That crate is external to this
repository, so the visiting operation is modelled from the spec:

* (ser) `begin_struct(name)`, every field in declaration order, then
  `end_struct()`;
* (de) `begin_struct(name)` (a no-op for the empty name), every field,
  then `end_struct()` -- except with an empty name, where per the spec
  the caller "reads fields directly from the current context ... without
  deepening the stack": sequence elements and the root re-enter the
  current context, so no `end_struct()` is issued for them.  This is the
  convention under which the repository's own tests
  (tests/test_array_deserialization.rs) pass;
* fixed arrays and sequences create one named array and visit every
  element with an empty name;
* a `Bytes<N>` buffer value writes its bytes through `serialize_bytes`
  and reads them back through `deserialize_bytes` with its capacity.

The universe covers the claims' "supported" shapes: every scalar kind,
strings, byte buffers, nested structs, fixed arrays and sequences whose
elements are scalars or structs (an array directly inside an array is
rejected by `add_item_to_object` in src/ser.rs). -/

/-- The static shape (Rust type) of a supported value. -/
inductive Ty where
  | tBool
  | tU8
  | tU16
  | tU32
  | tU64
  | tU128
  | tI8
  | tI16
  | tI32
  | tI64
  | tI128
  | tF32
  | tF64
  | tStr
  | tBytes (cap : ℕ)
  | tStruct (fields : List (String × Ty))
  | tArr (elem : Ty) (n : ℕ)
  | tVec (elem : Ty)

/-- A supported typed value.  Unsigned carriers are `ℕ`, signed are `ℤ`,
floats are the exact rationals of their doubles, byte buffers are byte
lists. -/
inductive TVal where
  | vBool (b : Bool)
  | vU8 (n : ℕ)
  | vU16 (n : ℕ)
  | vU32 (n : ℕ)
  | vU64 (n : ℕ)
  | vU128 (n : ℕ)
  | vI8 (z : ℤ)
  | vI16 (z : ℤ)
  | vI32 (z : ℤ)
  | vI64 (z : ℤ)
  | vI128 (z : ℤ)
  | vF32 (q : ℚ)
  | vF64 (q : ℚ)
  | vStr (s : String)
  | vBytes (bs : List ℕ)
  | vStruct (fields : List (String × TVal))
  | vArr (es : List TVal)
  | vVec (es : List TVal)

mutual

/-- The serializer-side visiting operation (modelled from the spec, see
the section header): drive one value into the `JsonSerializer`. -/
def serVisit : TVal → String → SerState → Except CJsonError SerState
  | .vBool b, name, s => serialize_bool s name b
  | .vU8 n, name, s => serialize_u8 s name n
  | .vU16 n, name, s => serialize_u16 s name n
  | .vU32 n, name, s => serialize_u32 s name n
  | .vU64 n, name, s => serialize_u64 s name n
  | .vU128 n, name, s => serialize_u128 s name n
  | .vI8 z, name, s => serialize_i8 s name z
  | .vI16 z, name, s => serialize_i16 s name z
  | .vI32 z, name, s => serialize_i32 s name z
  | .vI64 z, name, s => serialize_i64 s name z
  | .vI128 z, name, s => serialize_i128 s name z
  | .vF32 q, name, s => serialize_f32 s name q
  | .vF64 q, name, s => serialize_f64 s name q
  | .vStr v, name, s => serialize_str s name v
  | .vBytes bs, name, s => serialize_bytes s name bs
  | .vStruct fs, name, s => do
      let s1 ← serialize_struct_start s name
      let s2 ← serFieldsGo fs s1
      serialize_struct_end s2
  | .vArr es, name, s => do
      let s1 ← serialize_seq_start s name
      let s2 ← serElemsGo es s1
      .ok { s2 with stack_name := s2.stack_name.tail }
  | .vVec es, name, s => do
      let s1 ← serialize_seq_start s name
      let s2 ← serElemsGo es s1
      .ok { s2 with stack_name := s2.stack_name.tail }

/-- Serialize a struct's fields in declaration order. -/
def serFieldsGo : List (String × TVal) → SerState → Except CJsonError SerState
  | [], s => .ok s
  | (n, v) :: rest, s => do
      let s1 ← serVisit v n s
      serFieldsGo rest s1

/-- Serialize a sequence's elements, each with an empty name. -/
def serElemsGo : List TVal → SerState → Except CJsonError SerState
  | [], s => .ok s
  | e :: rest, s => do
      let s1 ← serVisit e "" s
      serElemsGo rest s1

end

/-- `to_json` (src/lib.rs:88), up to the trusted cJSON printer: run the
visiting operation with the empty root name on a fresh serializer, then
harvest the first map entry's tree (`print_unformatted`: `NotFound`
when the map is empty).  The Rust function then renders this tree to
text; the result here is that tree. -/
def to_json (v : TVal) : Except CJsonError JNode := do
  let s ← serVisit v "" ⟨[], [], []⟩
  match s.stack.head? with
  | none => .error .notFound
  | some (_, rp) =>
    match resolveRP s rp with
    | some t => .ok t
    | none => .error .allocationError

/-- The element loop of `deserialize_vec` (src/de.rs:185): duplicate the
element, push it under the synthesized key `name ++ "[" ++ i ++ "]"`,
run the element's visiting operation with an empty name, then pop
whatever is on top and remove it from the map (`pop().unwrap()`; the
empty-stack branch models the Rust panic and is unreachable in runs). -/
def deVecLoop (deElem : DeState → Except CJsonError (TVal × DeState)) (name : String) :
    ℕ → List JNode → DeState → Except CJsonError (List TVal × DeState)
  | _, [], s => .ok ([], s)
  | i, x :: rest, s => do
      let key := elemKey name i
      let (v, s2) ← deElem ⟨insertB s.stack key x, key :: s.stack_name⟩
      match s2.stack_name with
      | [] => .error .invalidOperation
      | last :: restN => do
          let (vs, s4) ← deVecLoop deElem name (i + 1) rest ⟨eraseB s2.stack last, restN⟩
          .ok (v :: vs, s4)

/-- `deserialize_vec` (src/de.rs:174): resolve the name to an Array node
of the current context (else `TypeError`), then run the element loop
over its items. -/
def deserialize_vecT (deElem : DeState → Except CJsonError (TVal × DeState))
    (name : String) (s : DeState) : Except CJsonError (List TVal × DeState) := do
  let item ← deGetItem s name
  match item with
  | .jarr xs => deVecLoop deElem name 0 xs s
  | _ => .error .typeError

mutual

/-- The deserializer-side visiting operation (modelled from the spec,
see the section header): read one value of the given shape.
`deserialize_array` (src/de.rs:208) is the `tArr` case: the collected
vector's length must equal the fixed size exactly, else
`InvalidOperation`. -/
def deVisit : Ty → String → DeState → Except CJsonError (TVal × DeState)
  | .tBool, name, s => (deserialize_bool s name).map (fun b => (.vBool b, s))
  | .tU8, name, s => (deserialize_u8 s name).map (fun n => (.vU8 n, s))
  | .tU16, name, s => (deserialize_u16 s name).map (fun n => (.vU16 n, s))
  | .tU32, name, s => (deserialize_u32 s name).map (fun n => (.vU32 n, s))
  | .tU64, name, s => (deserialize_u64 s name).map (fun n => (.vU64 n, s))
  | .tU128, name, s => (deserialize_u128 s name).map (fun n => (.vU128 n, s))
  | .tI8, name, s => (deserialize_i8 s name).map (fun z => (.vI8 z, s))
  | .tI16, name, s => (deserialize_i16 s name).map (fun z => (.vI16 z, s))
  | .tI32, name, s => (deserialize_i32 s name).map (fun z => (.vI32 z, s))
  | .tI64, name, s => (deserialize_i64 s name).map (fun z => (.vI64 z, s))
  | .tI128, name, s => (deserialize_i128 s name).map (fun z => (.vI128 z, s))
  | .tF32, name, s => (deserialize_f32 s name).map (fun q => (.vF32 q, s))
  | .tF64, name, s => (deserialize_f64 s name).map (fun q => (.vF64 q, s))
  | .tStr, name, s => (deserialize_string s name).map (fun v => (.vStr v, s))
  | .tBytes cap, name, s => (deserialize_bytes s name cap).map (fun bs => (.vBytes bs, s))
  | .tStruct tfs, name, s => do
      let s1 ← deserialize_struct_start s name
      let (vs, s2) ← deFieldsGo tfs s1
      if name = "" then .ok (.vStruct vs, s2)
      else (deserialize_struct_end s2).map (fun s3 => (.vStruct vs, s3))
  | .tArr t n, name, s => do
      let (es, s1) ← deserialize_vecT (fun s2 => deVisit t "" s2) name s
      if es.length = n then .ok (.vArr es, s1) else .error .invalidOperation
  | .tVec t, name, s =>
      (deserialize_vecT (fun s2 => deVisit t "" s2) name s).map
        (fun r => (.vVec r.1, r.2))

/-- Deserialize a struct's fields in declaration order
(`deserialize_field` dispatches straight to the field's visiting
operation). -/
def deFieldsGo : List (String × Ty) → DeState → Except CJsonError (List (String × TVal) × DeState)
  | [], s => .ok ([], s)
  | (n, t) :: rest, s => do
      let (v, s1) ← deVisit t n s
      let (vs, s2) ← deFieldsGo rest s1
      .ok ((n, v) :: vs, s2)

end

/-- Modelled from the spec: `from_json` is declared by the crate root
and used by its tests and examples, but its body is not under `src/`.
Per the spec it parses the text into a tree, seeds a fresh
deserializer's root context with it, invokes the destination type's
visiting operation with an empty root name, and tears everything down.
Here the trusted external print/parse pair is the identity on trees, so
the function consumes the tree directly. -/
def fromJsonTree (t : Ty) (tree : JNode) : Except CJsonError TVal := do
  let (v, _) ← deVisit t "" (deSeed tree)
  .ok v

/-- Modelled from the spec: the `from_json` pipeline including the parse
step, with the external parser's outcome on the text passed in as
`raw`. -/
def from_json_text (t : Ty) (json : String) (raw : Option JNode) : Except CJsonError TVal := do
  let s ← deserializer_parse json raw
  let (v, _) ← deVisit t "" s
  .ok v

/-- The round trip of the spec's law, at the tree level (the text layer
in between is the trusted cJSON printer/parser pair). -/
def roundtrip (t : Ty) (v : TVal) : Except CJsonError TVal :=
  (to_json v).bind (fromJsonTree t)

/-! ## Shape predicates over the universe -/

/-- Does the value's visiting push a context name of its own (structs,
fixed arrays and sequences do; scalars do not)? -/
def isNest : TVal → Bool
  | .vStruct _ => true
  | .vArr _ => true
  | .vVec _ => true
  | _ => false

/-- Is the value itself a fixed array or sequence?  Such a value cannot
be an element of another array (`add_item_to_object` on an array parent
is a `TypeError` in src/ser.rs). -/
def isSeq : TVal → Bool
  | .vArr _ => true
  | .vVec _ => true
  | _ => false

/-- Pairwise distinctness under the case-insensitive key comparison that
`cJSON_GetObjectItem` applies. -/
def ciDistinct : List String → Bool
  | [] => true
  | x :: xs => xs.all (fun y => !ciEq x y) && ciDistinct xs

mutual

/-- The tree a value serializes to, described recursively (the
serializer state machine is proved to produce exactly this). -/
def pureSer : TVal → JNode
  | .vBool b => .jbool b
  | .vU8 n => .jnum n
  | .vU16 n => .jnum n
  | .vU32 n => .jnum n
  | .vU64 n => .jnum (f64ofNat n)
  | .vU128 n => .jnum (f64ofNat n)
  | .vI8 z => .jnum z
  | .vI16 z => .jnum z
  | .vI32 z => .jnum z
  | .vI64 z => .jnum (f64ofInt z)
  | .vI128 z => .jnum (f64ofInt z)
  | .vF32 q => .jnum q
  | .vF64 q => .jnum q
  | .vStr s => .jstr s
  | .vBytes bs => .jstr (hexStr bs)
  | .vStruct fs => .jobj (pureFields fs)
  | .vArr es => .jarr (pureElems es)
  | .vVec es => .jarr (pureElems es)

/-- Fields of a serialized struct, in declaration order. -/
def pureFields : List (String × TVal) → List (String × JNode)
  | [] => []
  | (n, v) :: rest => (n, pureSer v) :: pureFields rest

/-- Elements of a serialized array, positionally. -/
def pureElems : List TVal → List JNode
  | [] => []
  | v :: rest => pureSer v :: pureElems rest

end

mutual

/-- The value inhabits the Rust type: carriers are within their width,
byte buffers hold bytes and fit their capacity, aggregate shapes
match.  These are exactly the invariants Rust's type system provides. -/
def hasTy : TVal → Ty → Bool
  | .vBool _, .tBool => true
  | .vU8 n, .tU8 => decide (n < 2 ^ 8)
  | .vU16 n, .tU16 => decide (n < 2 ^ 16)
  | .vU32 n, .tU32 => decide (n < 2 ^ 32)
  | .vU64 n, .tU64 => decide (n < 2 ^ 64)
  | .vU128 n, .tU128 => decide (n < 2 ^ 128)
  | .vI8 z, .tI8 => decide (-(2 ^ 7) ≤ z ∧ z < 2 ^ 7)
  | .vI16 z, .tI16 => decide (-(2 ^ 15) ≤ z ∧ z < 2 ^ 15)
  | .vI32 z, .tI32 => decide (-(2 ^ 31) ≤ z ∧ z < 2 ^ 31)
  | .vI64 z, .tI64 => decide (-(2 ^ 63) ≤ z ∧ z < 2 ^ 63)
  | .vI128 z, .tI128 => decide (-(2 ^ 127) ≤ z ∧ z < 2 ^ 127)
  | .vF32 _, .tF32 => true
  | .vF64 _, .tF64 => true
  | .vStr _, .tStr => true
  | .vBytes bs, .tBytes cap => decide (bs.length ≤ cap) && bs.all (fun b => decide (b < 2 ^ 8))
  | .vStruct fs, .tStruct tfs => hasTyF fs tfs
  | .vArr es, .tArr te n => decide (es.length = n) && hasTyL es te
  | .vVec es, .tVec te => hasTyL es te
  | _, _ => false

/-- Fields typed pointwise, same names, same order. -/
def hasTyF : List (String × TVal) → List (String × Ty) → Bool
  | [], [] => true
  | (n, v) :: fs, (m, t) :: tfs => n == m && hasTy v t && hasTyF fs tfs
  | _, _ => false

/-- Elements all of the element type. -/
def hasTyL : List TVal → Ty → Bool
  | [], _ => true
  | v :: vs, t => hasTy v t && hasTyL vs t

end

mutual

/-- The context-name discipline under which a pass stays uncorrupted,
relative to the set `anc` of live context names: field names are
Rust-identifier-like, a field that pushes a context does not reuse a
live name (the `BTreeMap` is keyed by bare name, so a reuse silently
clobbers the live entry), strings survive `CString::new`, and array
elements are scalars or structs.  Rust guarantees all of it except the
no-reuse requirement and NUL-freedom of string values. -/
def wfNames : List String → TVal → Bool
  | _, .vStr s => !hasNul s
  | anc, .vStruct fs => wfFieldsN anc fs
  | anc, .vArr es => wfElemsN anc es
  | anc, .vVec es => wfElemsN anc es
  | _, _ => true

/-- The per-field name discipline of a struct. -/
def wfFieldsN : List String → List (String × TVal) → Bool
  | _, [] => true
  | anc, (n, v) :: rest =>
      identLike n && (!(isNest v) || !(decide (n ∈ anc)))
        && wfNames (n :: anc) v && wfFieldsN anc rest

/-- The element discipline of an array or sequence. -/
def wfElemsN : List String → List TVal → Bool
  | _, [] => true
  | anc, e :: rest => !(isSeq e) && wfNames anc e && wfElemsN anc rest

end

mutual

/-- The extra conditions (beyond `hasTy` and `wfNames`) under which
deserialization recovers the value exactly: 64/128-bit integers within
the exactly-representable double range `[-2^53, 2^53]`, `f32` values
fixed under the single-precision rounding, and each struct's field
names pairwise distinct under the case-insensitive lookup. -/
def deOk : TVal → Bool
  | .vU64 n => decide (n ≤ 2 ^ 53)
  | .vU128 n => decide (n ≤ 2 ^ 53)
  | .vI64 z => decide (z.natAbs ≤ 2 ^ 53)
  | .vI128 z => decide (z.natAbs ≤ 2 ^ 53)
  | .vF32 q => decide (castF32 q = q)
  | .vStruct fs => ciDistinct (fs.map Prod.fst) && deOkFields fs
  | .vArr es => deOkElems es
  | .vVec es => deOkElems es
  | _ => true

/-- `deOk` over a struct's fields. -/
def deOkFields : List (String × TVal) → Bool
  | [] => true
  | (_, v) :: rest => deOk v && deOkFields rest

/-- `deOk` over elements. -/
def deOkElems : List TVal → Bool
  | [] => true
  | e :: rest => deOk e && deOkElems rest

end

/-! ## Concrete instances

Values, types and trees used by the concrete scenarios below: the
spec's struct-in-array-in-struct example, a rich demonstration record,
and the inputs of the counterexamples. -/

/-- The spec's 2-field user record type. -/
def userTy : Ty := .tStruct [("user", .tStr), ("password", .tStr)]

/-- The spec's config record type: a 2-element array of user records. -/
def cfgTy : Ty := .tStruct [("users", .tArr userTy 2)]

/-- The spec's nested scenario input tree. -/
def usersTree : JNode :=
  .jobj [("users", .jarr [
    .jobj [("user", .jstr "admin"), ("password", .jstr "pass1")],
    .jobj [("user", .jstr "guest"), ("password", .jstr "pass2")]])]

/-- First user record of the demonstration value. -/
def userA : List (String × TVal) := [("user", .vStr "admin"), ("password", .vStr "pass1")]

/-- Second user record of the demonstration value. -/
def userG : List (String × TVal) := [("user", .vStr "guest"), ("password", .vStr "pass2")]

/-- A demonstration record exercising every kind of field: scalars, a
byte buffer, a fixed array of structs, a nested struct, a sequence of
structs, and floating-point values. -/
def demoFs : List (String × TVal) :=
  [("version", .vU8 7), ("serial", .vBytes [171, 205]),
   ("users", .vArr [.vStruct userA, .vStruct userG]),
   ("wifi", .vStruct [("ssid", .vStr "Net"), ("auth", .vU8 3), ("enabled", .vBool true)]),
   ("scores", .vVec [.vStruct [("a", .vI64 (-5))], .vStruct [("a", .vI64 12)]]),
   ("ratio", .vF32 (Rat.divInt 3 2)), ("big", .vU64 9007199254740992),
   ("temp", .vF64 (Rat.divInt (-275) 2))]

/-- The demonstration record's Rust type. -/
def demoTfs : List (String × Ty) :=
  [("version", .tU8), ("serial", .tBytes 16), ("users", .tArr userTy 2),
   ("wifi", .tStruct [("ssid", .tStr), ("auth", .tU8), ("enabled", .tBool)]),
   ("scores", .tVec (.tStruct [("a", .tI64)])),
   ("ratio", .tF32), ("big", .tU64), ("temp", .tF64)]

/-- A record whose only field is a sequence named `users` -- legal
Rust. -/
def nastyInner : List (String × TVal) := [("users", .vVec [])]

/-- A record with a 2-element struct array under `users` whose elements
themselves have a `users` sequence field: the element's sequence start
reuses the live `BTreeMap` key `users`. -/
def nastyFs : List (String × TVal) :=
  [("users", .vArr [.vStruct nastyInner, .vStruct nastyInner])]

/-- What the serializer actually emits for `nastyFs` under the top
`users` key: a single corrupted object instead of two (the second
element was appended to the first element's inner array, to which the
overwritten map entry `users` then pointed). -/
def nastyTop : List JNode :=
  [.jobj [("users", .jarr [.jobj [("users", .jarr [])]])]]

/-- A 2-element array input for the fixed-size-length check. -/
def c4tree : JNode := .jarr [.jnum 1, .jnum 2]

/-- The current context object of the duplicate-push scenario: its own
field is again named `b`. -/
def c9inner : JNode := .jobj [("b", .jobj [("x", .jbool true)]), ("y", .jnum 1)]

/-- The root tree of the duplicate-push scenario. -/
def c9root : JNode := .jobj [("b", c9inner)]

/-- The deserializer map after `begin_struct("b")` from the root: the
name `b` is live while its context object again has a field `b`. -/
def c9stk : List (String × JNode) := [("", c9root), ("b", c9inner)]

/-! ## Association-map lemmas -/

theorem lookupB_insertB_self {α : Type} (m : List (String × α)) (k : String) (v : α) :
    lookupB (insertB m k v) k = some v := by
  induction m with
  | nil => simp [insertB, lookupB]
  | cons h rest ih =>
      obtain ⟨k', v'⟩ := h
      by_cases hk : k = k'
      · simp [insertB, hk, lookupB]
      · by_cases hlt : strLt k k' = true
        · simp [insertB, hk, hlt, lookupB]
        · have hne : ¬ (k' = k) := fun hh => hk hh.symm
          simp [insertB, hk, hlt, lookupB, hne, ih]

theorem lookupB_insertB_ne {α : Type} (m : List (String × α)) (k k2 : String) (v : α)
    (hne : k2 ≠ k) : lookupB (insertB m k v) k2 = lookupB m k2 := by
  have hkk : ¬ (k = k2) := fun h => hne h.symm
  induction m with
  | nil => simp [insertB, lookupB, hkk]
  | cons h rest ih =>
      obtain ⟨k', v'⟩ := h
      by_cases hk : k = k'
      · subst hk
        simp [insertB, lookupB, hkk]
      · by_cases hlt : strLt k k' = true
        · simp [insertB, hk, hlt, lookupB, hkk]
        · simp only [insertB, if_neg hk, if_neg hlt, lookupB]
          by_cases hk2 : k' = k2
          · simp [hk2]
          · simp [hk2, ih]

theorem lookupB_eraseB_ne {α : Type} (m : List (String × α)) (k k2 : String)
    (hne : k2 ≠ k) : lookupB (eraseB m k) k2 = lookupB m k2 := by
  induction m with
  | nil => simp [eraseB, lookupB]
  | cons h rest ih =>
      obtain ⟨k', v'⟩ := h
      by_cases hk : k' = k
      · subst hk
        have h2 : ¬ (k' = k2) := fun hh => hne hh.symm
        simp only [eraseB, List.filter, beq_self_eq_true, Bool.not_true]
        simp only [eraseB] at ih
        rw [ih]
        simp [lookupB, h2]
      · have hb : (!(k' == k)) = true := by simp [hk]
        simp only [eraseB, List.filter, hb]
        simp only [eraseB] at ih
        by_cases hk2 : k' = k2
        · simp [lookupB, hk2]
        · simp [lookupB, hk2, ih]

theorem head?_insertB {α : Type} (m : List (String × α)) (k : String) (v : α) (x : α)
    (hh : m.head? = some ("", x)) (hk : k ≠ "") :
    (insertB m k v).head? = some ("", x) := by
  cases m with
  | nil => simp at hh
  | cons h rest =>
      obtain ⟨k', v'⟩ := h
      simp only [List.head?] at hh
      obtain ⟨hk', hv'⟩ := Prod.mk.injEq .. ▸ (Option.some.injEq _ _ ▸ hh)
      subst hk'
      have h1 : ¬ (k = "") := hk
      have h2 : strLt k "" = false := by
        cases hd : k.data with
        | nil =>
            exact absurd (by cases k; simpa using congrArg String.mk hd) hk
        | cons c cs => simp [strLt, hd, strLtL, String.data]
      simp [insertB, h1, h2, List.head?, hv']

/-! ## Path lemmas -/

theorem child_setChild_self (t : JNode) (st : PStep) (c x : JNode)
    (h : child t st = some c) : child (setChild t st x) st = some x := by
  cases t with
  | jobj fs =>
      cases st with
      | ofld i =>
          simp only [child, Option.map_eq_some'] at h
          obtain ⟨kv, hkv, hsnd⟩ := h
          have hlen : i < fs.length := by
            simp [List.get?_eq_getElem?] at hkv
            exact (List.getElem?_eq_some.mp hkv).1
          simp [setChild, hkv, child, List.get?_eq_getElem?, List.getElem?_set, hlen]
      | aidx i => simp [child] at h
  | jarr xs =>
      cases st with
      | ofld i => simp [child] at h
      | aidx i =>
          have hlen : i < xs.length := by
            simp [child, List.get?_eq_getElem?] at h
            exact (List.getElem?_eq_some.mp h).1
          simp [setChild, child, List.get?_eq_getElem?, List.getElem?_set, hlen]
  | jnull => simp [child] at h
  | jbool b => simp [child] at h
  | jnum q => simp [child] at h
  | jstr s => simp [child] at h

theorem getP_mapAtP_self (p : Path) (f : JNode → JNode) (t c : JNode)
    (h : getP p t = some c) : getP p (mapAtP p f t) = some (f c) := by
  induction p generalizing t c with
  | nil =>
      simp only [getP] at h
      cases h
      simp [mapAtP, getP]
  | cons st p' ih =>
      simp only [getP, Option.bind_eq_some] at h
      obtain ⟨c1, hc1, hrec⟩ := h
      simp only [mapAtP, hc1, getP]
      rw [child_setChild_self _ _ _ _ hc1]
      simpa using ih _ _ hrec

theorem getP_updP_self (p : Path) (x t c : JNode) (h : getP p t = some c) :
    getP p (updP p x t) = some x :=
  getP_mapAtP_self p (fun _ => x) t c h

theorem mapAtP_eq_updP (p : Path) (f : JNode → JNode) (t c : JNode)
    (h : getP p t = some c) : mapAtP p f t = updP p (f c) t := by
  induction p generalizing t c with
  | nil =>
      simp only [getP] at h
      cases h
      simp [mapAtP, updP]
  | cons st p' ih =>
      simp only [getP, Option.bind_eq_some] at h
      obtain ⟨c1, hc1, hrec⟩ := h
      simp only [mapAtP, updP, hc1]
      rw [ih _ _ hrec]
      rfl

theorem setChild_setChild (t : JNode) (st : PStep) (a b : JNode) :
    setChild (setChild t st a) st b = setChild t st b := by
  cases t with
  | jobj fs =>
      cases st with
      | ofld i =>
          cases hkv : fs[i]? with
          | none => simp [setChild, hkv]
          | some kv =>
              have hlen : i < fs.length := (List.getElem?_eq_some.mp hkv).1
              have h2 : (fs.set i (kv.1, a))[i]? = some (kv.1, a) := by
                simp [List.getElem?_set, hlen]
              simp [setChild, hkv, h2, List.set_set]
      | aidx i => simp [setChild]
  | jarr xs =>
      cases st with
      | ofld i => simp [setChild]
      | aidx i => simp [setChild, List.set_set]
  | jnull => simp [setChild]
  | jbool b => simp [setChild]
  | jnum q => simp [setChild]
  | jstr s2 => simp [setChild]

theorem updP_append (p : Path) (q : Path) (x t c : JNode) (h : getP p t = some c) :
    updP (p ++ q) x t = updP p (updP q x c) t := by
  induction p generalizing t c with
  | nil =>
      simp only [getP] at h
      cases h
      simp [updP, mapAtP]
  | cons st p' ih =>
      simp only [getP, Option.bind_eq_some] at h
      obtain ⟨c1, hc1, hrec⟩ := h
      have hl : (st :: p') ++ q = st :: (p' ++ q) := rfl
      rw [hl]
      show mapAtP (st :: (p' ++ q)) (fun _ => x) t
        = mapAtP (st :: p') (fun _ => updP q x c) t
      simp only [mapAtP, hc1]
      have h2 := ih _ _ hrec
      simp only [updP] at h2
      exact congrArg (setChild t st) h2

theorem updP_updP (p : Path) (x y t c : JNode) (h : getP p t = some c) :
    updP p y (updP p x t) = updP p y t := by
  induction p generalizing t c with
  | nil => simp [updP, mapAtP]
  | cons st p' ih =>
      simp only [getP, Option.bind_eq_some] at h
      obtain ⟨c1, hc1, hrec⟩ := h
      show updP (st :: p') y (mapAtP (st :: p') (fun _ => x) t) = mapAtP (st :: p') (fun _ => y) t
      simp only [mapAtP, hc1]
      simp only [updP, mapAtP, child_setChild_self t st c1 (mapAtP p' (fun _ => x) c1) hc1]
      have h2 := ih _ _ hrec
      simp only [updP] at h2
      rw [h2, setChild_setChild]

/-! ## Name-shape lemmas -/

theorem string_ext (a b : String) (h : a.data = b.data) : a = b := by
  cases a
  cases b
  exact congrArg String.mk h

theorem identLike_ne_empty {n : String} (h : identLike n = true) : n ≠ "" := by
  simp only [identLike, Bool.and_eq_true, Bool.not_eq_true', beq_eq_false_iff_ne] at h
  exact h.1

theorem identChar_ne_nul {c : Char} (h : identChar c = true) : (c.toNat == 0) = false := by
  cases hb : (c.toNat == 0) with
  | false => rfl
  | true =>
      exfalso
      have hc2 : c.toNat = 0 := by simpa using hb
      have hcz : c = Char.ofNat 0 := by
        have h0 := congrArg Char.ofNat hc2
        rwa [Char.ofNat_toNat] at h0
      rw [hcz] at h
      exact absurd h (by decide)

theorem identLike_hasNul {n : String} (h : identLike n = true) : hasNul n = false := by
  simp only [identLike, Bool.and_eq_true, List.all_eq_true] at h
  simp only [hasNul, List.any_eq_false]
  intro c hc
  simp [identChar_ne_nul (h.2 c hc)]

theorem identLike_no_bracket {n : String} (h : identLike n = true) :
    ('[' : Char) ∉ n.data := by
  simp only [identLike, Bool.and_eq_true, List.all_eq_true] at h
  intro hmem
  have := h.2 _ hmem
  revert this
  decide

theorem elemKey_data (b : String) (i : ℕ) :
    (elemKey b i).data = b.data ++ '[' :: ((toString i).data ++ [']']) := by
  simp [elemKey, String.data_append]

theorem ne_elemKey_of_no_bracket {c : String} (hc : ('[' : Char) ∉ c.data)
    (b : String) (i : ℕ) : c ≠ elemKey b i := by
  intro h
  apply hc
  rw [h, elemKey_data]
  simp

theorem append_bracket_inj (l1 l2 r1 r2 : List Char)
    (h1 : ('[' : Char) ∉ l1) (h2 : ('[' : Char) ∉ l2)
    (heq : l1 ++ '[' :: r1 = l2 ++ '[' :: r2) : l1 = l2 := by
  induction l1 generalizing l2 with
  | nil =>
      cases l2 with
      | nil => rfl
      | cons c2 cs2 =>
          simp only [List.nil_append, List.cons_append, List.cons.injEq] at heq
          exact absurd (heq.1 ▸ List.mem_cons_self c2 cs2) (heq.1 ▸ h2)
  | cons c1 cs1 ih =>
      cases l2 with
      | nil =>
          simp only [List.nil_append, List.cons_append, List.cons.injEq] at heq
          exact absurd (heq.1 ▸ List.mem_cons_self c1 cs1) (heq.1 ▸ h1)
      | cons c2 cs2 =>
          simp only [List.cons_append, List.cons.injEq] at heq
          have hh1 : ('[' : Char) ∉ cs1 := fun hm => h1 (List.mem_cons_of_mem _ hm)
          have hh2 : ('[' : Char) ∉ cs2 := fun hm => h2 (List.mem_cons_of_mem _ hm)
          rw [heq.1, ih cs2 hh1 hh2 heq.2]

theorem elemKey_inj_base {a b : String} {i j : ℕ}
    (ha : ('[' : Char) ∉ a.data) (hb : ('[' : Char) ∉ b.data)
    (h : elemKey a i = elemKey b j) : a = b := by
  have hd := congrArg String.data h
  rw [elemKey_data, elemKey_data] at hd
  exact string_ext _ _ (append_bracket_inj _ _ _ _ ha hb hd)

theorem elemKey_ne_empty (b : String) (i : ℕ) : elemKey b i ≠ "" := by
  intro h
  have hd := congrArg String.data h
  rw [elemKey_data] at hd
  simp [String.data] at hd

/-! ## Live context names

During a well-formed pass the live context names are the root marker,
the container field names on the current nesting path, and the
synthesized element keys built from them.  `liveN anc` describes them
relative to the bracket-free base names `anc`. -/

/-- `k` is a live name over the base set `anc`. -/
def liveN (anc : List String) (k : String) : Prop :=
  k ∈ anc ∨ ∃ b i, b ∈ anc ∧ k = elemKey b i

/-- Every base name is bracket-free. -/
def ancOk (anc : List String) : Prop := ∀ a ∈ anc, ('[' : Char) ∉ a.data

theorem liveN_mono {anc anc2 : List String} (hsub : ∀ x ∈ anc, x ∈ anc2) (k : String)
    (h : liveN anc k) : liveN anc2 k := by
  rcases h with h | ⟨b, i, hb, hk⟩
  · exact Or.inl (hsub _ h)
  · exact Or.inr ⟨b, i, hsub _ hb, hk⟩

theorem liveN_base {anc : List String} {k : String} (h : k ∈ anc) : liveN anc k := Or.inl h

theorem liveN_elemKey {anc : List String} {b : String} (hb : b ∈ anc) (i : ℕ) :
    liveN anc (elemKey b i) := Or.inr ⟨b, i, hb, rfl⟩

theorem ancOk_cons {anc : List String} {a : String} (h : ancOk anc)
    (ha : ('[' : Char) ∉ a.data) : ancOk (a :: anc) := by
  intro x hx
  rcases List.mem_cons.mp hx with hx | hx
  · exact hx ▸ ha
  · exact h x hx

/-- A fresh bracket-free name outside `anc` collides with no live name,
and neither do the element keys built from it. -/
theorem liveN_ne_fresh {anc : List String} {name : String} (hanc : ancOk anc)
    (hnin : name ∉ anc) (hnb : ('[' : Char) ∉ name.data) (k : String)
    (hk : liveN anc k) : k ≠ name ∧ ∀ i, k ≠ elemKey name i := by
  rcases hk with hk | ⟨b, j, hb, hkey⟩
  · refine ⟨fun h => hnin (h ▸ hk), fun i => ?_⟩
    exact ne_elemKey_of_no_bracket (hanc _ hk) name i
  · subst hkey
    refine ⟨fun h => ?_, fun i h => ?_⟩
    · exact ne_elemKey_of_no_bracket hnb b j h.symm
    · exact hnin (elemKey_inj_base (hanc _ hb) hnb h ▸ hb)

/-! ## Cast exactness lemmas -/

theorem f64ofNat_exact {n : ℕ} (h : n ≤ 2 ^ 53) : f64ofNat n = n := by
  rw [f64ofNat, if_pos h]

theorem f64ofInt_exact {z : ℤ} (h : z.natAbs ≤ 2 ^ 53) : f64ofInt z = z := by
  by_cases hz : z < 0
  · have h1 : f64ofNat z.natAbs = (z.natAbs : ℚ) := f64ofNat_exact h
    have h2 : (z.natAbs : ℤ) = -z := by omega
    have h3 : ((z.natAbs : ℕ) : ℚ) = -(z : ℚ) := by
      rw [← Int.cast_natCast (R := ℚ), h2]
      push_cast
      ring
    simp only [f64ofInt, if_pos hz, h1, h3]
    ring
  · have h1 : f64ofNat z.natAbs = (z.natAbs : ℚ) := f64ofNat_exact h
    have h2 : (z.natAbs : ℤ) = z := by omega
    have h3 : ((z.natAbs : ℕ) : ℚ) = (z : ℚ) := by
      rw [← Int.cast_natCast (R := ℚ), h2]
    simp only [f64ofInt, if_neg hz, h1, h3]

theorem truncQ_natCast (n : ℕ) : truncQ (n : ℚ) = n := by
  simp [truncQ, Nat.cast_nonneg, Int.floor_natCast]

theorem truncQ_intCast (z : ℤ) : truncQ (z : ℚ) = z := by
  by_cases hz : (0 : ℚ) ≤ (z : ℚ)
  · simp [truncQ, hz, Int.floor_intCast]
  · rw [truncQ, if_neg hz]
    rw [show -(z : ℚ) = ((-z : ℤ) : ℚ) from by push_cast; ring]
    rw [Int.floor_intCast]
    ring

theorem castU64_natCast {n : ℕ} (h : n ≤ 2 ^ 64 - 1) : castU64 (n : ℚ) = n := by
  simp only [castU64, truncQ_natCast, Int.toNat_natCast]
  exact min_eq_left h

theorem castI64_intCast {z : ℤ} (h1 : -(2 ^ 63) ≤ z) (h2 : z ≤ 2 ^ 63 - 1) :
    castI64 (z : ℚ) = z := by
  simp only [castI64, truncQ_intCast]
  rw [min_eq_left h2, max_eq_right h1]

/-! ## Hex lemmas -/

/-- A lowercase hexadecimal digit. -/
def isLowerHexDigit (c : Char) : Bool :=
  ('0' ≤ c && c ≤ '9') || ('a' ≤ c && c ≤ 'f')

theorem hexDigitChar_lower {m : ℕ} (h : m < 16) : isLowerHexDigit (hexDigitChar m) = true := by
  interval_cases m <;> decide

theorem hexDigitChar_ascii {m : ℕ} (h : m < 16) : isAsciiHexDigit (hexDigitChar m) = true := by
  interval_cases m <;> decide

theorem hexDigitChar_ne_nul {m : ℕ} (h : m < 16) : ((hexDigitChar m).toNat == 0) = false := by
  interval_cases m <;> decide

theorem hexVal_hexDigitChar {m : ℕ} (h : m < 16) : hexVal (hexDigitChar m) = m := by
  interval_cases m <;> decide

theorem byteHex_digits_lt (b : ℕ) : b / 16 % 16 < 16 ∧ b % 16 < 16 :=
  ⟨Nat.mod_lt _ (by norm_num), Nat.mod_lt _ (by norm_num)⟩

theorem hexStr_data (bs : List ℕ) : (hexStr bs).data = bs.flatMap byteHex := rfl

theorem hexStr_length (bs : List ℕ) : (hexStr bs).length = 2 * bs.length := by
  show (bs.flatMap byteHex).length = 2 * bs.length
  induction bs with
  | nil => simp
  | cons b rest ih => simp [List.flatMap_cons, ih, byteHex]; omega

theorem hexStr_chars (bs : List ℕ) : ∀ c ∈ (hexStr bs).data, isLowerHexDigit c = true := by
  rw [hexStr_data]
  induction bs with
  | nil => simp
  | cons b rest ih =>
      intro c hc
      rw [List.flatMap_cons] at hc
      rcases List.mem_append.mp hc with hc | hc
      · simp only [byteHex, List.mem_cons, List.not_mem_nil, or_false] at hc
        rcases hc with hc | hc
        · exact hc ▸ hexDigitChar_lower (byteHex_digits_lt b).1
        · exact hc ▸ hexDigitChar_lower (byteHex_digits_lt b).2
      · exact ih c hc

theorem hasNul_hexStr (bs : List ℕ) : hasNul (hexStr bs) = false := by
  simp only [hasNul, List.any_eq_false, hexStr_data]
  induction bs with
  | nil => simp
  | cons b rest ih =>
      intro c hc
      rw [List.flatMap_cons] at hc
      rcases List.mem_append.mp hc with hc | hc
      · simp only [byteHex, List.mem_cons, List.not_mem_nil, or_false] at hc
        rcases hc with hc | hc
        · simp [hc, hexDigitChar_ne_nul (byteHex_digits_lt b).1]
        · simp [hc, hexDigitChar_ne_nul (byteHex_digits_lt b).2]
      · exact ih c hc

theorem isHexCheck_hexStr {bs : List ℕ} (hbs : bs ≠ []) : isHexCheck (hexStr bs) = true := by
  have hlen := hexStr_length bs
  have hpos : 0 < bs.length := List.length_pos.mpr hbs
  simp only [isHexCheck, Bool.and_eq_true, beq_iff_eq, decide_eq_true_eq, List.all_eq_true]
  refine ⟨⟨by omega, by omega⟩, ?_⟩
  intro c hc
  have hl := hexStr_chars bs c hc
  revert hl
  simp only [isLowerHexDigit, isAsciiHexDigit, Bool.or_eq_true, Bool.and_eq_true]
  tauto

theorem hexPairs_hexStr {bs : List ℕ} {cap : ℕ} (hlt : ∀ b ∈ bs, b < 2 ^ 8)
    (hcap : bs.length ≤ cap) : hexPairs (bs.flatMap byteHex) cap = bs := by
  induction bs generalizing cap with
  | nil => cases cap <;> simp [hexPairs]
  | cons b rest ih =>
      cases cap with
      | zero => simp at hcap
      | succ c =>
          have hb : b < 2 ^ 8 := hlt b (List.mem_cons_self b rest)
          have h1 := hexVal_hexDigitChar (byteHex_digits_lt b).1
          have h2 := hexVal_hexDigitChar (byteHex_digits_lt b).2
          rw [List.flatMap_cons]
          show hexPairs
              (hexDigitChar (b / 16 % 16) :: hexDigitChar (b % 16) :: rest.flatMap byteHex)
              (c + 1) = b :: rest
          simp only [hexPairs, h1, h2]
          have hres : 16 * (b / 16 % 16) + b % 16 = b := by omega
          rw [hres, ih (fun x hx => hlt x (List.mem_cons_of_mem _ hx)) (by simpa using hcap)]

theorem utf8Copy_empty (cap : ℕ) : utf8Copy "" cap = [] := by
  have h : (("".data.flatMap String.utf8EncodeChar).map (fun b => b.toNat)) = [] := by rfl
  simp only [utf8Copy, h, List.take_nil]

/-! ## Combined path lemmas -/

theorem getP_append (p q : Path) (t : JNode) :
    getP (p ++ q) t = (getP p t).bind (getP q) := by
  induction p generalizing t with
  | nil => simp [getP]
  | cons st p' ih =>
      show getP (st :: (p' ++ q)) t = _
      simp only [getP]
      cases child t st with
      | none => simp
      | some c => simp [ih]

theorem set_concat {α : Type} (l : List α) (a b : α) :
    (l ++ [a]).set l.length b = l ++ [b] := by
  induction l with
  | nil => simp
  | cons x xs ih => simp [List.set, ih]

theorem get_set_self {α : Type} (l : List α) (i : ℕ) (a : α) (h : l[i]? = some a) :
    l.set i a = l := by
  induction l generalizing i with
  | nil => simp at h
  | cons x xs ih =>
      cases i with
      | zero =>
          simp at h
          simp [List.set, h]
      | succ j =>
          simp at h
          simp [List.set, ih j h]

theorem setChild_self (t : JNode) (st : PStep) (c : JNode) (h : child t st = some c) :
    setChild t st c = t := by
  cases t with
  | jobj fs =>
      cases st with
      | ofld i =>
          simp only [child, Option.map_eq_some'] at h
          obtain ⟨kv, hkv, hsnd⟩ := h
          simp only [setChild, hkv]
          rw [← hsnd]
          rw [get_set_self fs i kv (by simpa [List.get?_eq_getElem?] using hkv)]
      | aidx i => simp [child] at h
  | jarr xs =>
      cases st with
      | ofld i => simp [child] at h
      | aidx i =>
          simp only [child] at h
          simp [setChild, get_set_self xs i c (by simpa [List.get?_eq_getElem?] using h)]
  | jnull => simp [child] at h
  | jbool b => simp [child] at h
  | jnum q => simp [child] at h
  | jstr s2 => simp [child] at h

theorem updP_self (p : Path) (t c : JNode) (h : getP p t = some c) : updP p c t = t := by
  induction p generalizing t c with
  | nil =>
      simp only [getP] at h
      cases h
      rfl
  | cons st p' ih =>
      simp only [getP, Option.bind_eq_some] at h
      obtain ⟨c1, hc1, hrec⟩ := h
      show mapAtP (st :: p') (fun _ => c) t = t
      simp only [mapAtP, hc1]
      have h2 := ih c1 c hrec
      simp only [updP] at h2
      rw [h2, setChild_self t st c1 hc1]

theorem child_concat_obj (fs : List (String × JNode)) (name : String) (x : JNode) :
    child (.jobj (fs ++ [(name, x)])) (.ofld fs.length) = some x := by
  simp [child, List.getElem?_concat_length]

theorem child_concat_arr (xs : List JNode) (x : JNode) :
    child (.jarr (xs ++ [x])) (.aidx xs.length) = some x := by
  simp [child, List.getElem?_concat_length]

theorem getP_child_concat_obj {p : Path} {T : JNode} {fs0 : List (String × JNode)}
    (name : String) (x0 : JNode) (hT : getP p T = some (.jobj fs0)) :
    getP (p ++ [.ofld fs0.length]) (updP p (.jobj (fs0 ++ [(name, x0)])) T) = some x0 := by
  rw [getP_append, getP_updP_self p _ T _ hT]
  simp [getP, child_concat_obj]

theorem getP_child_concat_arr {p : Path} {T : JNode} {xs : List JNode}
    (x0 : JNode) (hT : getP p T = some (.jarr xs)) :
    getP (p ++ [.aidx xs.length]) (updP p (.jarr (xs ++ [x0])) T) = some x0 := by
  rw [getP_append, getP_updP_self p _ T _ hT]
  simp [getP, child_concat_arr]

theorem updP_child_concat_obj {p : Path} {T : JNode} {fs0 : List (String × JNode)}
    (name : String) (x0 X : JNode) (hT : getP p T = some (.jobj fs0)) :
    updP (p ++ [.ofld fs0.length]) X (updP p (.jobj (fs0 ++ [(name, x0)])) T)
      = updP p (.jobj (fs0 ++ [(name, X)])) T := by
  have h1 : getP p (updP p (.jobj (fs0 ++ [(name, x0)])) T) = some (.jobj (fs0 ++ [(name, x0)])) :=
    getP_updP_self p _ T _ hT
  rw [updP_append _ _ _ _ _ h1]
  have h2 : updP [PStep.ofld fs0.length] X (.jobj (fs0 ++ [(name, x0)]))
      = .jobj (fs0 ++ [(name, X)]) := by
    simp only [updP, mapAtP, child_concat_obj]
    simp [setChild, List.getElem?_concat_length, set_concat]
  rw [h2, updP_updP _ _ _ _ _ hT]

theorem updP_child_concat_arr {p : Path} {T : JNode} {xs : List JNode}
    (x0 X : JNode) (hT : getP p T = some (.jarr xs)) :
    updP (p ++ [.aidx xs.length]) X (updP p (.jarr (xs ++ [x0])) T)
      = updP p (.jarr (xs ++ [X])) T := by
  have h1 : getP p (updP p (.jarr (xs ++ [x0])) T) = some (.jarr (xs ++ [x0])) :=
    getP_updP_self p _ T _ hT
  rw [updP_append _ _ _ _ _ h1]
  have h2 : updP [PStep.aidx xs.length] X (.jarr (xs ++ [x0])) = .jarr (xs ++ [X]) := by
    simp only [updP, mapAtP, child_concat_arr]
    simp [setChild, set_concat]
  rw [h2, updP_updP _ _ _ _ _ hT]

/-! ## Characterizations of the single machine operations -/

theorem writeScalar_obj {stk : List (String × ℕ × Path)} {c : String} {rest : List String}
    {T : JNode} {p : Path} {fs0 : List (String × JNode)} (name : String) (node : JNode)
    (hlk : lookupB stk c = some (0, p)) (hT : getP p T = some (.jobj fs0))
    (hnul : hasNul name = false) :
    writeScalar ⟨[T], stk, c :: rest⟩ name node false
      = .ok ⟨[updP p (.jobj (fs0 ++ [(name, node)])) T], stk, c :: rest⟩ := by
  have hmap := mapAtP_eq_updP p (appendO name node) T _ hT
  simp [writeScalar, getCurrentRP, hlk, resolveRP, hT, JNode.isArray, JNode.isObject, hnul,
    updAtRP, hmap, appendO]

theorem writeScalar_arr {stk : List (String × ℕ × Path)} {c : String} {rest : List String}
    {T : JNode} {p : Path} {xs : List JNode} (name : String) (node : JNode)
    (hlk : lookupB stk c = some (0, p)) (hT : getP p T = some (.jarr xs)) :
    writeScalar ⟨[T], stk, c :: rest⟩ name node false
      = .ok ⟨[updP p (.jarr (xs ++ [node])) T], stk, c :: rest⟩ := by
  have hmap := mapAtP_eq_updP p (appendA node) T _ hT
  simp [writeScalar, getCurrentRP, hlk, resolveRP, hT, JNode.isArray, updAtRP, hmap, appendA]

theorem serialize_struct_start_named {stk : List (String × ℕ × Path)} {c : String}
    {rest : List String} {T : JNode} {p : Path} {fs0 : List (String × JNode)} (name : String)
    (hlk : lookupB stk c = some (0, p)) (hT : getP p T = some (.jobj fs0))
    (hne : name ≠ "") (hnul : hasNul name = false) :
    serialize_struct_start ⟨[T], stk, c :: rest⟩ name
      = .ok ⟨[updP p (.jobj (fs0 ++ [(name, .jobj [])])) T],
             insertB stk name (0, p ++ [.ofld fs0.length]), name :: c :: rest⟩ := by
  have hmap := mapAtP_eq_updP p (appendO name (.jobj [])) T _ hT
  simp [serialize_struct_start, hne, hlk, resolveRP, hT, hnul, updAtRP, hmap, appendO]

theorem serialize_struct_start_elem {stk : List (String × ℕ × Path)} {c : String}
    {rest : List String} {T : JNode} {p : Path} {xs : List JNode}
    (hlk : lookupB stk c = some (0, p)) (hT : getP p T = some (.jarr xs)) :
    serialize_struct_start ⟨[T], stk, c :: rest⟩ ""
      = .ok ⟨[updP p (.jarr (xs ++ [.jobj []])) T],
             insertB stk (elemKey c xs.length) (0, p ++ [.aidx xs.length]),
             elemKey c xs.length :: c :: rest⟩ := by
  have hmap := mapAtP_eq_updP p (appendA (.jobj [])) T _ hT
  simp [serialize_struct_start, hlk, resolveRP, hT, updAtRP, hmap, appendA]

theorem serialize_seq_start_spec {stk : List (String × ℕ × Path)} {c : String}
    {rest : List String} {T : JNode} {p : Path} {fs0 : List (String × JNode)} (name : String)
    (hlk : lookupB stk c = some (0, p)) (hT : getP p T = some (.jobj fs0))
    (hnul : hasNul name = false) :
    serialize_seq_start ⟨[T], stk, c :: rest⟩ name
      = .ok ⟨[updP p (.jobj (fs0 ++ [(name, .jarr [])])) T],
             insertB stk name (0, p ++ [.ofld fs0.length]), name :: c :: rest⟩ := by
  have hmap := mapAtP_eq_updP p (appendO name (.jarr [])) T _ hT
  simp [serialize_seq_start, getCurrentRP, hlk, resolveRP, hT, hnul, updAtRP, hmap, appendO]

theorem deGetItem_named {stk : List (String × JNode)} {c : String} {rest : List String}
    {gs : List (String × JNode)} {x : JNode} (name : String)
    (hlk : lookupB stk c = some (.jobj gs)) (hget : getField gs name = some x)
    (hne : name ≠ "") (hnul : hasNul name = false) :
    deGetItem ⟨stk, c :: rest⟩ name = .ok x := by
  simp [deGetItem, hlk, hne, JNode.get_object_item, hnul, hget]

theorem deGetItem_self {stk : List (String × JNode)} {c : String} {rest : List String}
    {x : JNode} (hlk : lookupB stk c = some x) :
    deGetItem ⟨stk, c :: rest⟩ "" = .ok x := by
  simp [deGetItem, hlk]

/-- `ciEq` is reflexive. -/
theorem ciEq_refl (a : String) : ciEq a a = true := by simp [ciEq]

/-- With case-insensitively distinct field names, object lookup of a
field name finds exactly that field's serialized value. -/
theorem getField_pureFields {fs : List (String × TVal)} {n : String} {v : TVal}
    (hnd : ciDistinct (fs.map Prod.fst) = true) (hmem : (n, v) ∈ fs) :
    getField (pureFields fs) n = some (pureSer v) := by
  induction fs with
  | nil => cases hmem
  | cons hd tl ih =>
      obtain ⟨n0, v0⟩ := hd
      simp only [List.map_cons, ciDistinct, Bool.and_eq_true, List.all_eq_true] at hnd
      rcases List.mem_cons.mp hmem with hh | hh
      · obtain ⟨hn, hv⟩ := Prod.mk.injEq .. ▸ hh
        subst hn
        subst hv
        simp [pureFields, getField, ciEq_refl]
      · have hne : ciEq n0 n = false := by
          have := hnd.1 n (by exact List.mem_map.mpr ⟨(n, v), hh, rfl⟩)
          simpa using this
        simp [pureFields, getField, hne, ih hnd.2 hh]

/-! ## The serializer simulation

Under the name discipline `wfNames`, running the visiting operation on
the machine appends exactly the `pureSer` tree of the value to the
current container, restores the name stack, and touches no live map
entry. -/

mutual

theorem serVisit_obj (anc : List String) (v : TVal) (name c : String) (rest : List String)
    (stk : List (String × ℕ × Path)) (T : JNode) (p : Path) (fs0 : List (String × JNode))
    (hanc : ancOk anc) (hcl : liveN anc c)
    (hlk : lookupB stk c = some (0, p)) (hT : getP p T = some (.jobj fs0))
    (hname : identLike name = true) (hnest : isNest v = true → name ∉ anc)
    (hwf : wfNames (name :: anc) v = true) :
    ∃ stk2,
      serVisit v name ⟨[T], stk, c :: rest⟩
        = .ok ⟨[updP p (.jobj (fs0 ++ [(name, pureSer v)])) T], stk2, c :: rest⟩
      ∧ (∀ k, liveN anc k → lookupB stk2 k = lookupB stk k)
      ∧ (∀ x, stk.head? = some ("", x) → stk2.head? = some ("", x)) := by
  have hnul := identLike_hasNul hname
  cases v with
  | vBool b =>
      exact ⟨stk, by simp [serVisit, serialize_bool,
        writeScalar_obj _ _ hlk hT hnul, pureSer], fun k _ => rfl, fun x hx => hx⟩
  | vU8 n =>
      exact ⟨stk, by simp [serVisit, serialize_u8,
        writeScalar_obj _ _ hlk hT hnul, pureSer], fun k _ => rfl, fun x hx => hx⟩
  | vU16 n =>
      exact ⟨stk, by simp [serVisit, serialize_u16,
        writeScalar_obj _ _ hlk hT hnul, pureSer], fun k _ => rfl, fun x hx => hx⟩
  | vU32 n =>
      exact ⟨stk, by simp [serVisit, serialize_u32,
        writeScalar_obj _ _ hlk hT hnul, pureSer], fun k _ => rfl, fun x hx => hx⟩
  | vU64 n =>
      exact ⟨stk, by simp [serVisit, serialize_u64,
        writeScalar_obj _ _ hlk hT hnul, pureSer], fun k _ => rfl, fun x hx => hx⟩
  | vU128 n =>
      exact ⟨stk, by simp [serVisit, serialize_u128,
        writeScalar_obj _ _ hlk hT hnul, pureSer], fun k _ => rfl, fun x hx => hx⟩
  | vI8 z =>
      exact ⟨stk, by simp [serVisit, serialize_i8,
        writeScalar_obj _ _ hlk hT hnul, pureSer], fun k _ => rfl, fun x hx => hx⟩
  | vI16 z =>
      exact ⟨stk, by simp [serVisit, serialize_i16,
        writeScalar_obj _ _ hlk hT hnul, pureSer], fun k _ => rfl, fun x hx => hx⟩
  | vI32 z =>
      exact ⟨stk, by simp [serVisit, serialize_i32,
        writeScalar_obj _ _ hlk hT hnul, pureSer], fun k _ => rfl, fun x hx => hx⟩
  | vI64 z =>
      exact ⟨stk, by simp [serVisit, serialize_i64,
        writeScalar_obj _ _ hlk hT hnul, pureSer], fun k _ => rfl, fun x hx => hx⟩
  | vI128 z =>
      exact ⟨stk, by simp [serVisit, serialize_i128,
        writeScalar_obj _ _ hlk hT hnul, pureSer], fun k _ => rfl, fun x hx => hx⟩
  | vF32 q =>
      exact ⟨stk, by simp [serVisit, serialize_f32,
        writeScalar_obj _ _ hlk hT hnul, pureSer], fun k _ => rfl, fun x hx => hx⟩
  | vF64 q =>
      exact ⟨stk, by simp [serVisit, serialize_f64,
        writeScalar_obj _ _ hlk hT hnul, pureSer], fun k _ => rfl, fun x hx => hx⟩
  | vStr sv =>
      have hsv : hasNul sv = false := by simpa [wfNames] using hwf
      exact ⟨stk, by simp [serVisit, serialize_str, hsv,
        writeScalar_obj _ _ hlk hT hnul, pureSer], fun k _ => rfl, fun x hx => hx⟩
  | vBytes bs =>
      exact ⟨stk, by simp [serVisit, serialize_bytes, hasNul_hexStr,
        writeScalar_obj _ _ hlk hT hnul, pureSer], fun k _ => rfl, fun x hx => hx⟩
  | vStruct fs =>
      have hne := identLike_ne_empty hname
      have hnb := identLike_no_bracket hname
      have hnin : name ∉ anc := hnest (by simp [isNest])
      have hwff : wfFieldsN (name :: anc) fs = true := by simpa [wfNames] using hwf
      have hT1 := getP_child_concat_obj name (.jobj []) hT
      obtain ⟨stk2, hrun, hpres, hhead⟩ :=
        serFields_obj (name :: anc) fs name (c :: rest)
          (insertB stk name (0, p ++ [PStep.ofld fs0.length]))
          (updP p (.jobj (fs0 ++ [(name, .jobj [])])) T)
          (p ++ [PStep.ofld fs0.length]) []
          (ancOk_cons hanc hnb) (liveN_base (List.mem_cons_self _ _))
          (lookupB_insertB_self _ _ _) hT1 hwff
      refine ⟨stk2, ?_, ?_, ?_⟩
      · simp only [serVisit]
        rw [serialize_struct_start_named name hlk hT hne hnul]
        simp only [ebind_ok]
        rw [hrun]
        simp only [ebind_ok, serialize_struct_end, List.nil_append]
        rw [updP_child_concat_obj name _ _ hT]
        rfl
      · intro k hk
        have hfr := liveN_ne_fresh hanc hnin hnb k hk
        rw [hpres k (liveN_mono (fun x hx => List.mem_cons_of_mem _ hx) k hk)]
        exact lookupB_insertB_ne _ _ _ _ hfr.1
      · intro x hx
        exact hhead x (head?_insertB _ _ _ x hx hne)
  | vArr es =>
      have hne := identLike_ne_empty hname
      have hnb := identLike_no_bracket hname
      have hnin : name ∉ anc := hnest (by simp [isNest])
      have hwfe : wfElemsN (name :: anc) es = true := by simpa [wfNames] using hwf
      have hT1 := getP_child_concat_obj name (.jarr []) hT
      obtain ⟨stk2, hrun, hpres, hhead⟩ :=
        serElems_arr (name :: anc) es name (c :: rest)
          (insertB stk name (0, p ++ [PStep.ofld fs0.length]))
          (updP p (.jobj (fs0 ++ [(name, .jarr [])])) T)
          (p ++ [PStep.ofld fs0.length]) []
          (ancOk_cons hanc hnb) (List.mem_cons_self _ _)
          (lookupB_insertB_self _ _ _) hT1 hwfe
      refine ⟨stk2, ?_, ?_, ?_⟩
      · simp only [serVisit]
        rw [serialize_seq_start_spec name hlk hT hnul]
        simp only [ebind_ok]
        rw [hrun]
        simp only [ebind_ok, List.nil_append]
        rw [updP_child_concat_obj name _ _ hT]
        rfl
      · intro k hk
        have hfr := liveN_ne_fresh hanc hnin hnb k hk
        rw [hpres k (liveN_mono (fun x hx => List.mem_cons_of_mem _ hx) k hk) hfr.2]
        exact lookupB_insertB_ne _ _ _ _ hfr.1
      · intro x hx
        exact hhead x (head?_insertB _ _ _ x hx hne)
  | vVec es =>
      have hne := identLike_ne_empty hname
      have hnb := identLike_no_bracket hname
      have hnin : name ∉ anc := hnest (by simp [isNest])
      have hwfe : wfElemsN (name :: anc) es = true := by simpa [wfNames] using hwf
      have hT1 := getP_child_concat_obj name (.jarr []) hT
      obtain ⟨stk2, hrun, hpres, hhead⟩ :=
        serElems_arr (name :: anc) es name (c :: rest)
          (insertB stk name (0, p ++ [PStep.ofld fs0.length]))
          (updP p (.jobj (fs0 ++ [(name, .jarr [])])) T)
          (p ++ [PStep.ofld fs0.length]) []
          (ancOk_cons hanc hnb) (List.mem_cons_self _ _)
          (lookupB_insertB_self _ _ _) hT1 hwfe
      refine ⟨stk2, ?_, ?_, ?_⟩
      · simp only [serVisit]
        rw [serialize_seq_start_spec name hlk hT hnul]
        simp only [ebind_ok]
        rw [hrun]
        simp only [ebind_ok, List.nil_append]
        rw [updP_child_concat_obj name _ _ hT]
        rfl
      · intro k hk
        have hfr := liveN_ne_fresh hanc hnin hnb k hk
        rw [hpres k (liveN_mono (fun x hx => List.mem_cons_of_mem _ hx) k hk) hfr.2]
        exact lookupB_insertB_ne _ _ _ _ hfr.1
      · intro x hx
        exact hhead x (head?_insertB _ _ _ x hx hne)

theorem serVisit_arr (anc : List String) (v : TVal) (c : String) (rest : List String)
    (stk : List (String × ℕ × Path)) (T : JNode) (p : Path) (xs : List JNode)
    (hanc : ancOk anc) (hcin : c ∈ anc)
    (hlk : lookupB stk c = some (0, p)) (hT : getP p T = some (.jarr xs))
    (hseq : isSeq v = false) (hwf : wfNames anc v = true) :
    ∃ stk2,
      serVisit v "" ⟨[T], stk, c :: rest⟩
        = .ok ⟨[updP p (.jarr (xs ++ [pureSer v])) T], stk2, c :: rest⟩
      ∧ (∀ k, liveN anc k → (∀ i, k ≠ elemKey c i) → lookupB stk2 k = lookupB stk k)
      ∧ (∀ x, stk.head? = some ("", x) → stk2.head? = some ("", x)) := by
  cases v with
  | vBool b =>
      exact ⟨stk, by simp [serVisit, serialize_bool,
        writeScalar_arr _ _ hlk hT, pureSer], fun k _ _ => rfl, fun x hx => hx⟩
  | vU8 n =>
      exact ⟨stk, by simp [serVisit, serialize_u8,
        writeScalar_arr _ _ hlk hT, pureSer], fun k _ _ => rfl, fun x hx => hx⟩
  | vU16 n =>
      exact ⟨stk, by simp [serVisit, serialize_u16,
        writeScalar_arr _ _ hlk hT, pureSer], fun k _ _ => rfl, fun x hx => hx⟩
  | vU32 n =>
      exact ⟨stk, by simp [serVisit, serialize_u32,
        writeScalar_arr _ _ hlk hT, pureSer], fun k _ _ => rfl, fun x hx => hx⟩
  | vU64 n =>
      exact ⟨stk, by simp [serVisit, serialize_u64,
        writeScalar_arr _ _ hlk hT, pureSer], fun k _ _ => rfl, fun x hx => hx⟩
  | vU128 n =>
      exact ⟨stk, by simp [serVisit, serialize_u128,
        writeScalar_arr _ _ hlk hT, pureSer], fun k _ _ => rfl, fun x hx => hx⟩
  | vI8 z =>
      exact ⟨stk, by simp [serVisit, serialize_i8,
        writeScalar_arr _ _ hlk hT, pureSer], fun k _ _ => rfl, fun x hx => hx⟩
  | vI16 z =>
      exact ⟨stk, by simp [serVisit, serialize_i16,
        writeScalar_arr _ _ hlk hT, pureSer], fun k _ _ => rfl, fun x hx => hx⟩
  | vI32 z =>
      exact ⟨stk, by simp [serVisit, serialize_i32,
        writeScalar_arr _ _ hlk hT, pureSer], fun k _ _ => rfl, fun x hx => hx⟩
  | vI64 z =>
      exact ⟨stk, by simp [serVisit, serialize_i64,
        writeScalar_arr _ _ hlk hT, pureSer], fun k _ _ => rfl, fun x hx => hx⟩
  | vI128 z =>
      exact ⟨stk, by simp [serVisit, serialize_i128,
        writeScalar_arr _ _ hlk hT, pureSer], fun k _ _ => rfl, fun x hx => hx⟩
  | vF32 q =>
      exact ⟨stk, by simp [serVisit, serialize_f32,
        writeScalar_arr _ _ hlk hT, pureSer], fun k _ _ => rfl, fun x hx => hx⟩
  | vF64 q =>
      exact ⟨stk, by simp [serVisit, serialize_f64,
        writeScalar_arr _ _ hlk hT, pureSer], fun k _ _ => rfl, fun x hx => hx⟩
  | vStr sv =>
      have hsv : hasNul sv = false := by simpa [wfNames] using hwf
      exact ⟨stk, by simp [serVisit, serialize_str, hsv,
        writeScalar_arr _ _ hlk hT, pureSer], fun k _ _ => rfl, fun x hx => hx⟩
  | vBytes bs =>
      exact ⟨stk, by simp [serVisit, serialize_bytes, hasNul_hexStr,
        writeScalar_arr _ _ hlk hT, pureSer], fun k _ _ => rfl, fun x hx => hx⟩
  | vStruct fs =>
      have hwff : wfFieldsN anc fs = true := by simpa [wfNames] using hwf
      have hT1 := getP_child_concat_arr (.jobj []) hT
      obtain ⟨stk2, hrun, hpres, hhead⟩ :=
        serFields_obj anc fs (elemKey c xs.length) (c :: rest)
          (insertB stk (elemKey c xs.length) (0, p ++ [PStep.aidx xs.length]))
          (updP p (.jarr (xs ++ [.jobj []])) T) (p ++ [PStep.aidx xs.length]) []
          hanc (liveN_elemKey hcin xs.length)
          (lookupB_insertB_self _ _ _) hT1 hwff
      refine ⟨stk2, ?_, ?_, ?_⟩
      · simp only [serVisit]
        rw [serialize_struct_start_elem hlk hT]
        simp only [ebind_ok]
        rw [hrun]
        simp only [ebind_ok, serialize_struct_end, List.nil_append]
        rw [updP_child_concat_arr _ _ hT]
        rfl
      · intro k hk hke
        rw [hpres k hk]
        exact lookupB_insertB_ne _ _ _ _ (hke xs.length)
      · intro x hx
        exact hhead x (head?_insertB _ _ _ x hx (elemKey_ne_empty c xs.length))
  | vArr es => simp [isSeq] at hseq
  | vVec es => simp [isSeq] at hseq

theorem serFields_obj (anc : List String) (fl : List (String × TVal)) (c : String)
    (rest : List String) (stk : List (String × ℕ × Path)) (T : JNode) (p : Path)
    (acc : List (String × JNode))
    (hanc : ancOk anc) (hcl : liveN anc c)
    (hlk : lookupB stk c = some (0, p)) (hT : getP p T = some (.jobj acc))
    (hwf : wfFieldsN anc fl = true) :
    ∃ stk2,
      serFieldsGo fl ⟨[T], stk, c :: rest⟩
        = .ok ⟨[updP p (.jobj (acc ++ pureFields fl)) T], stk2, c :: rest⟩
      ∧ (∀ k, liveN anc k → lookupB stk2 k = lookupB stk k)
      ∧ (∀ x, stk.head? = some ("", x) → stk2.head? = some ("", x)) := by
  cases fl with
  | nil =>
      refine ⟨stk, ?_, fun k _ => rfl, fun x hx => hx⟩
      simp only [serFieldsGo, pureFields, List.append_nil]
      rw [updP_self p T _ hT]
  | cons hdv tl =>
      obtain ⟨n, v⟩ := hdv
      simp only [wfFieldsN, Bool.and_eq_true] at hwf
      obtain ⟨⟨⟨hident, hnr⟩, hwfv⟩, hwtl⟩ := hwf
      have hnest : isNest v = true → n ∉ anc := by
        intro hv
        rcases (Bool.or_eq_true _ _).mp hnr with hh | hh
        · rw [hv] at hh
          simp at hh
        · simpa using hh
      obtain ⟨stk1, hrun1, hpres1, hhead1⟩ :=
        serVisit_obj anc v n c rest stk T p acc hanc hcl hlk hT hident hnest hwfv
      have hlk1 : lookupB stk1 c = some (0, p) := by rw [hpres1 c hcl]; exact hlk
      have hT1 : getP p (updP p (.jobj (acc ++ [(n, pureSer v)])) T)
          = some (.jobj (acc ++ [(n, pureSer v)])) := getP_updP_self p _ T _ hT
      obtain ⟨stk2, hrun2, hpres2, hhead2⟩ :=
        serFields_obj anc tl c rest stk1 (updP p (.jobj (acc ++ [(n, pureSer v)])) T) p
          (acc ++ [(n, pureSer v)]) hanc hcl hlk1 hT1 hwtl
      refine ⟨stk2, ?_, ?_, ?_⟩
      · simp only [serFieldsGo]
        rw [hrun1]
        simp only [ebind_ok]
        rw [hrun2, updP_updP p _ _ T _ hT, List.append_assoc, List.singleton_append]
        rfl
      · intro k hk
        rw [hpres2 k hk, hpres1 k hk]
      · intro x hx
        exact hhead2 x (hhead1 x hx)

theorem serElems_arr (anc : List String) (es : List TVal) (c : String) (rest : List String)
    (stk : List (String × ℕ × Path)) (T : JNode) (p : Path) (acc : List JNode)
    (hanc : ancOk anc) (hcin : c ∈ anc)
    (hlk : lookupB stk c = some (0, p)) (hT : getP p T = some (.jarr acc))
    (hwf : wfElemsN anc es = true) :
    ∃ stk2,
      serElemsGo es ⟨[T], stk, c :: rest⟩
        = .ok ⟨[updP p (.jarr (acc ++ pureElems es)) T], stk2, c :: rest⟩
      ∧ (∀ k, liveN anc k → (∀ i, k ≠ elemKey c i) → lookupB stk2 k = lookupB stk k)
      ∧ (∀ x, stk.head? = some ("", x) → stk2.head? = some ("", x)) := by
  cases es with
  | nil =>
      refine ⟨stk, ?_, fun k _ _ => rfl, fun x hx => hx⟩
      simp only [serElemsGo, pureElems, List.append_nil]
      rw [updP_self p T _ hT]
  | cons e tl =>
      simp only [wfElemsN, Bool.and_eq_true] at hwf
      obtain ⟨⟨hseq, hwfe⟩, hwtl⟩ := hwf
      have hseq2 : isSeq e = false := by simpa using hseq
      obtain ⟨stk1, hrun1, hpres1, hhead1⟩ :=
        serVisit_arr anc e c rest stk T p acc hanc hcin hlk hT hseq2 hwfe
      have hcne : ∀ i, c ≠ elemKey c i := fun i =>
        ne_elemKey_of_no_bracket (hanc c hcin) c i
      have hlk1 : lookupB stk1 c = some (0, p) := by
        rw [hpres1 c (liveN_base hcin) hcne]; exact hlk
      have hT1 : getP p (updP p (.jarr (acc ++ [pureSer e])) T)
          = some (.jarr (acc ++ [pureSer e])) := getP_updP_self p _ T _ hT
      obtain ⟨stk2, hrun2, hpres2, hhead2⟩ :=
        serElems_arr anc tl c rest stk1 (updP p (.jarr (acc ++ [pureSer e])) T) p
          (acc ++ [pureSer e]) hanc hcin hlk1 hT1 hwtl
      refine ⟨stk2, ?_, ?_, ?_⟩
      · simp only [serElemsGo]
        rw [hrun1]
        simp only [ebind_ok]
        rw [hrun2, updP_updP p _ _ T _ hT, List.append_assoc, List.singleton_append]
        rfl
      · intro k hk hke
        rw [hpres2 k hk hke, hpres1 k hk hke]
      · intro x hx
        exact hhead2 x (hhead1 x hx)

end

/-- The serializer pipeline on a well-formed root record produces
exactly the `pureSer` tree. -/
theorem to_json_pure (fs : List (String × TVal)) (hwf : wfFieldsN [""] fs = true) :
    to_json (.vStruct fs) = .ok (.jobj (pureFields fs)) := by
  obtain ⟨stk2, hrun, hpres, hhead⟩ :=
    serFields_obj [""] fs "" [] [("", (0, []))] (.jobj []) [] []
      (fun a ha => by
        rcases List.mem_cons.mp ha with h | h
        · subst h
          simp
        · simp at h)
      (liveN_base (List.mem_cons_self _ _))
      (by simp [lookupB]) (by simp [getP]) hwf
  have hh : stk2.head? = some ("", (0, ([] : Path))) := hhead _ rfl
  simp only [to_json, serVisit]
  rw [show serialize_struct_start ⟨[], [], []⟩ ""
      = .ok ⟨[.jobj []], [("", (0, []))], [""]⟩ from rfl]
  simp only [ebind_ok]
  rw [hrun]
  simp only [ebind_ok, serialize_struct_end]
  simp [hh, resolveRP, getP, updP, mapAtP]

/-! ## The deserializer simulation -/

theorem deserialize_struct_start_named {stk : List (String × JNode)} {c : String}
    {rest : List String} {gs : List (String × JNode)} {x : JNode} (name : String)
    (hlk : lookupB stk c = some (.jobj gs)) (hget : getField gs name = some x)
    (hne : name ≠ "") (hnul : hasNul name = false) :
    deserialize_struct_start ⟨stk, c :: rest⟩ name
      = .ok ⟨insertB stk name x, name :: c :: rest⟩ := by
  simp [deserialize_struct_start, hne, hlk, JNode.get_object_item, hnul, hget]

set_option maxHeartbeats 1600000 in
/-- Reading back one scalar: on the node its value serializes to, the
typed read recovers the value exactly, under the `hasTy` carrier bounds
and the `deOk` precision conditions. -/
theorem deserialize_scalar_inv (t : Ty) (v : TVal) (s : DeState) (name : String)
    (hitem : deGetItem s name = .ok (pureSer v))
    (hty : hasTy v t = true) (hde : deOk v = true) (hsc : isNest v = false) :
    deVisit t name s = .ok (v, s) := by
  cases v with
  | vBool b =>
      cases t <;> simp only [hasTy, Bool.false_eq_true] at hty
      simp [deVisit, deserialize_bool, hitem, pureSer, JNode.get_bool_value]
  | vU8 n =>
      cases t <;> simp only [hasTy, Bool.false_eq_true, decide_eq_true_eq] at hty
      have hnn : ¬((n : ℚ) < 0) := not_lt.mpr (Nat.cast_nonneg n)
      have hcast : castU64 ((n : ℕ) : ℚ) = n := castU64_natCast (by omega)
      have hle : n ≤ 255 := by omega
      simp [deVisit, deserialize_u8, deserialize_u64, hitem, pureSer,
        JNode.get_number_value, hnn, hcast, hle]
  | vU16 n =>
      cases t <;> simp only [hasTy, Bool.false_eq_true, decide_eq_true_eq] at hty
      have hnn : ¬((n : ℚ) < 0) := not_lt.mpr (Nat.cast_nonneg n)
      have hcast : castU64 ((n : ℕ) : ℚ) = n := castU64_natCast (by omega)
      have hle : n ≤ 65535 := by omega
      simp [deVisit, deserialize_u16, deserialize_u64, hitem, pureSer,
        JNode.get_number_value, hnn, hcast, hle]
  | vU32 n =>
      cases t <;> simp only [hasTy, Bool.false_eq_true, decide_eq_true_eq] at hty
      have hnn : ¬((n : ℚ) < 0) := not_lt.mpr (Nat.cast_nonneg n)
      have hcast : castU64 ((n : ℕ) : ℚ) = n := castU64_natCast (by omega)
      have hle : n ≤ 4294967295 := by omega
      simp [deVisit, deserialize_u32, deserialize_u64, hitem, pureSer,
        JNode.get_number_value, hnn, hcast, hle]
  | vU64 n =>
      cases t <;> simp only [hasTy, Bool.false_eq_true, decide_eq_true_eq] at hty
      have hde2 : n ≤ 2 ^ 53 := by simpa [deOk] using hde
      have hex : f64ofNat n = (n : ℚ) := f64ofNat_exact hde2
      have hnn : ¬((n : ℚ) < 0) := not_lt.mpr (Nat.cast_nonneg n)
      have hcast : castU64 ((n : ℕ) : ℚ) = n := castU64_natCast (by omega)
      simp [deVisit, deserialize_u64, hitem, pureSer, hex,
        JNode.get_number_value, hnn, hcast]
  | vU128 n =>
      cases t <;> simp only [hasTy, Bool.false_eq_true, decide_eq_true_eq] at hty
      have hde2 : n ≤ 2 ^ 53 := by simpa [deOk] using hde
      have hex : f64ofNat n = (n : ℚ) := f64ofNat_exact hde2
      have hnn : ¬((n : ℚ) < 0) := not_lt.mpr (Nat.cast_nonneg n)
      have hcast : castU64 ((n : ℕ) : ℚ) = n := castU64_natCast (by omega)
      simp [deVisit, deserialize_u128, deserialize_u64, hitem, pureSer, hex,
        JNode.get_number_value, hnn, hcast]
  | vI8 z =>
      cases t <;> simp only [hasTy, Bool.false_eq_true, decide_eq_true_eq] at hty
      have hcast : castI64 ((z : ℤ) : ℚ) = z := castI64_intCast (by omega) (by omega)
      have hif : -128 ≤ z ∧ z ≤ 127 := by omega
      simp [deVisit, deserialize_i8, deserialize_i64, hitem, pureSer,
        JNode.get_number_value, hcast, hif]
  | vI16 z =>
      cases t <;> simp only [hasTy, Bool.false_eq_true, decide_eq_true_eq] at hty
      have hcast : castI64 ((z : ℤ) : ℚ) = z := castI64_intCast (by omega) (by omega)
      have hif : -32768 ≤ z ∧ z ≤ 32767 := by omega
      simp [deVisit, deserialize_i16, deserialize_i64, hitem, pureSer,
        JNode.get_number_value, hcast, hif]
  | vI32 z =>
      cases t <;> simp only [hasTy, Bool.false_eq_true, decide_eq_true_eq] at hty
      have hcast : castI64 ((z : ℤ) : ℚ) = z := castI64_intCast (by omega) (by omega)
      have hif : -2147483648 ≤ z ∧ z ≤ 2147483647 := by omega
      simp [deVisit, deserialize_i32, deserialize_i64, hitem, pureSer,
        JNode.get_number_value, hcast, hif]
  | vI64 z =>
      cases t <;> simp only [hasTy, Bool.false_eq_true, decide_eq_true_eq] at hty
      have hde2 : z.natAbs ≤ 2 ^ 53 := by simpa [deOk] using hde
      have hex : f64ofInt z = (z : ℚ) := f64ofInt_exact hde2
      have hcast : castI64 ((z : ℤ) : ℚ) = z := castI64_intCast (by omega) (by omega)
      simp [deVisit, deserialize_i64, hitem, pureSer, hex,
        JNode.get_number_value, hcast]
  | vI128 z =>
      cases t <;> simp only [hasTy, Bool.false_eq_true, decide_eq_true_eq] at hty
      have hde2 : z.natAbs ≤ 2 ^ 53 := by simpa [deOk] using hde
      have hex : f64ofInt z = (z : ℚ) := f64ofInt_exact hde2
      have hcast : castI64 ((z : ℤ) : ℚ) = z := castI64_intCast (by omega) (by omega)
      simp [deVisit, deserialize_i128, deserialize_i64, hitem, pureSer, hex,
        JNode.get_number_value, hcast]
  | vF32 q =>
      cases t <;> simp only [hasTy, Bool.false_eq_true] at hty
      have hfix : castF32 q = q := by simpa [deOk] using hde
      simp [deVisit, deserialize_f32, hitem, pureSer, JNode.get_number_value, hfix]
  | vF64 q =>
      cases t <;> simp only [hasTy, Bool.false_eq_true] at hty
      simp [deVisit, deserialize_f64, hitem, pureSer, JNode.get_number_value]
  | vStr sv =>
      cases t <;> simp only [hasTy, Bool.false_eq_true] at hty
      simp [deVisit, deserialize_string, hitem, pureSer]
  | vBytes bs =>
      cases t <;> simp only [hasTy, Bool.and_eq_true, Bool.false_eq_true,
        decide_eq_true_eq, List.all_eq_true] at hty
      rename_i cap
      obtain ⟨hlen, hall⟩ := hty
      by_cases hnil : bs = []
      · subst hnil
        have hemp : hexStr [] = "" := rfl
        simp [deVisit, deserialize_bytes, hitem, pureSer, hemp, isHexCheck,
          utf8Copy_empty]
      · have hhex := isHexCheck_hexStr hnil
        have hall2 : ∀ b ∈ bs, b < 2 ^ 8 := fun b hb => by simpa using hall b hb
        have hdec : hexToBytesCapped (hexStr bs) cap = bs := by
          rw [hexToBytesCapped, hexStr_data]
          exact hexPairs_hexStr hall2 hlen
        simp [deVisit, deserialize_bytes, hitem, pureSer, hhex, hdec]
  | vStruct fs => simp [isNest] at hsc
  | vArr es => simp [isNest] at hsc
  | vVec es => simp [isNest] at hsc

mutual

theorem deVisit_named (anc : List String) (t : Ty) (v : TVal) (name c : String)
    (rest : List String) (stk : List (String × JNode)) (gs : List (String × JNode))
    (hanc : ancOk anc) (hcl : liveN anc c)
    (hlk : lookupB stk c = some (.jobj gs))
    (hget : getField gs name = some (pureSer v))
    (hty : hasTy v t = true) (hde : deOk v = true)
    (hwf : wfNames (name :: anc) v = true)
    (hname : identLike name = true)
    (hnest : isNest v = true → name ∉ anc) :
    ∃ stk2, deVisit t name ⟨stk, c :: rest⟩ = .ok (v, ⟨stk2, c :: rest⟩)
      ∧ ∀ k, liveN anc k → lookupB stk2 k = lookupB stk k := by
  have hne := identLike_ne_empty hname
  have hnul := identLike_hasNul hname
  have hnb := identLike_no_bracket hname
  cases v with
  | vBool b =>
      exact ⟨stk, deserialize_scalar_inv t _ ⟨stk, c :: rest⟩ name
        (deGetItem_named name hlk hget hne hnul) hty hde rfl, fun k _ => rfl⟩
  | vU8 n =>
      exact ⟨stk, deserialize_scalar_inv t _ ⟨stk, c :: rest⟩ name
        (deGetItem_named name hlk hget hne hnul) hty hde rfl, fun k _ => rfl⟩
  | vU16 n =>
      exact ⟨stk, deserialize_scalar_inv t _ ⟨stk, c :: rest⟩ name
        (deGetItem_named name hlk hget hne hnul) hty hde rfl, fun k _ => rfl⟩
  | vU32 n =>
      exact ⟨stk, deserialize_scalar_inv t _ ⟨stk, c :: rest⟩ name
        (deGetItem_named name hlk hget hne hnul) hty hde rfl, fun k _ => rfl⟩
  | vU64 n =>
      exact ⟨stk, deserialize_scalar_inv t _ ⟨stk, c :: rest⟩ name
        (deGetItem_named name hlk hget hne hnul) hty hde rfl, fun k _ => rfl⟩
  | vU128 n =>
      exact ⟨stk, deserialize_scalar_inv t _ ⟨stk, c :: rest⟩ name
        (deGetItem_named name hlk hget hne hnul) hty hde rfl, fun k _ => rfl⟩
  | vI8 z =>
      exact ⟨stk, deserialize_scalar_inv t _ ⟨stk, c :: rest⟩ name
        (deGetItem_named name hlk hget hne hnul) hty hde rfl, fun k _ => rfl⟩
  | vI16 z =>
      exact ⟨stk, deserialize_scalar_inv t _ ⟨stk, c :: rest⟩ name
        (deGetItem_named name hlk hget hne hnul) hty hde rfl, fun k _ => rfl⟩
  | vI32 z =>
      exact ⟨stk, deserialize_scalar_inv t _ ⟨stk, c :: rest⟩ name
        (deGetItem_named name hlk hget hne hnul) hty hde rfl, fun k _ => rfl⟩
  | vI64 z =>
      exact ⟨stk, deserialize_scalar_inv t _ ⟨stk, c :: rest⟩ name
        (deGetItem_named name hlk hget hne hnul) hty hde rfl, fun k _ => rfl⟩
  | vI128 z =>
      exact ⟨stk, deserialize_scalar_inv t _ ⟨stk, c :: rest⟩ name
        (deGetItem_named name hlk hget hne hnul) hty hde rfl, fun k _ => rfl⟩
  | vF32 q =>
      exact ⟨stk, deserialize_scalar_inv t _ ⟨stk, c :: rest⟩ name
        (deGetItem_named name hlk hget hne hnul) hty hde rfl, fun k _ => rfl⟩
  | vF64 q =>
      exact ⟨stk, deserialize_scalar_inv t _ ⟨stk, c :: rest⟩ name
        (deGetItem_named name hlk hget hne hnul) hty hde rfl, fun k _ => rfl⟩
  | vStr sv =>
      exact ⟨stk, deserialize_scalar_inv t _ ⟨stk, c :: rest⟩ name
        (deGetItem_named name hlk hget hne hnul) hty hde rfl, fun k _ => rfl⟩
  | vBytes bs =>
      exact ⟨stk, deserialize_scalar_inv t _ ⟨stk, c :: rest⟩ name
        (deGetItem_named name hlk hget hne hnul) hty hde rfl, fun k _ => rfl⟩
  | vStruct fs =>
      cases t <;> simp only [hasTy, Bool.false_eq_true] at hty
      rename_i tfs
      have hnin : name ∉ anc := hnest (by simp [isNest])
      have hwff : wfFieldsN (name :: anc) fs = true := by simpa [wfNames] using hwf
      have hdeS : (ciDistinct (fs.map Prod.fst) && deOkFields fs) = true := by
        simpa [deOk] using hde
      have hnd : ciDistinct (fs.map Prod.fst) = true :=
        ((Bool.and_eq_true _ _).mp hdeS).1
      have hdef : deOkFields fs = true := ((Bool.and_eq_true _ _).mp hdeS).2
      obtain ⟨stk2, hrun, hpres⟩ :=
        deFields_named (name :: anc) fs tfs name (c :: rest)
          (insertB stk name (.jobj (pureFields fs))) (pureFields fs)
          (ancOk_cons hanc hnb) (liveN_base (List.mem_cons_self _ _))
          (lookupB_insertB_self _ _ _)
          (fun n2 v2 hmem => getField_pureFields hnd hmem)
          hty hdef hwff
      refine ⟨eraseB stk2 name, ?_, ?_⟩
      · simp only [deVisit]
        rw [deserialize_struct_start_named name hlk
          (by simpa [pureSer] using hget) hne hnul]
        simp only [ebind_ok]
        rw [hrun]
        simp only [ebind_ok, if_neg hne, deserialize_struct_end, emap_ok]
        rw [if_pos (by simp only [List.length_cons]; omega :
          1 < (name :: c :: rest).length)]
      · intro k hk
        have hfr := liveN_ne_fresh hanc hnin hnb k hk
        rw [lookupB_eraseB_ne _ _ _ hfr.1,
          hpres k (liveN_mono (fun x hx => List.mem_cons_of_mem _ hx) k hk),
          lookupB_insertB_ne _ _ _ _ hfr.1]
  | vArr es =>
      cases t <;> simp only [hasTy, Bool.and_eq_true, Bool.false_eq_true,
        decide_eq_true_eq] at hty
      rename_i te n
      obtain ⟨hlen, htyl⟩ := hty
      have hnin : name ∉ anc := hnest (by simp [isNest])
      have hwfe : wfElemsN (name :: anc) es = true := by simpa [wfNames] using hwf
      have hdel : deOkElems es = true := by simpa [deOk] using hde
      obtain ⟨stk2, hrun, hpres⟩ :=
        deVecLoop_spec anc te es name c rest stk 0 hanc hname hnin htyl hdel hwfe
      refine ⟨stk2, ?_, hpres⟩
      simp only [deVisit, deserialize_vecT]
      rw [deGetItem_named name hlk hget hne hnul]
      simp only [pureSer, ebind_ok]
      rw [hrun]
      simp only [ebind_ok]
      rw [if_pos hlen]
  | vVec es =>
      cases t <;> simp only [hasTy, Bool.false_eq_true] at hty
      rename_i te
      have hnin : name ∉ anc := hnest (by simp [isNest])
      have hwfe : wfElemsN (name :: anc) es = true := by simpa [wfNames] using hwf
      have hdel : deOkElems es = true := by simpa [deOk] using hde
      obtain ⟨stk2, hrun, hpres⟩ :=
        deVecLoop_spec anc te es name c rest stk 0 hanc hname hnin hty hdel hwfe
      refine ⟨stk2, ?_, hpres⟩
      simp only [deVisit, deserialize_vecT]
      rw [deGetItem_named name hlk hget hne hnul]
      simp only [pureSer, ebind_ok]
      rw [hrun]
      simp only [emap_ok]

theorem deVisit_self (anc : List String) (t : Ty) (v : TVal) (c : String)
    (rest : List String) (stk : List (String × JNode))
    (hanc : ancOk anc) (hcl : liveN anc c)
    (hlk : lookupB stk c = some (pureSer v))
    (hty : hasTy v t = true) (hde : deOk v = true)
    (hwf : wfNames anc v = true) (hseq : isSeq v = false) :
    ∃ stk2, deVisit t "" ⟨stk, c :: rest⟩ = .ok (v, ⟨stk2, c :: rest⟩)
      ∧ ∀ k, liveN anc k → lookupB stk2 k = lookupB stk k := by
  cases v with
  | vBool b =>
      exact ⟨stk, deserialize_scalar_inv t _ ⟨stk, c :: rest⟩ ""
        (deGetItem_self hlk) hty hde rfl, fun k _ => rfl⟩
  | vU8 n =>
      exact ⟨stk, deserialize_scalar_inv t _ ⟨stk, c :: rest⟩ ""
        (deGetItem_self hlk) hty hde rfl, fun k _ => rfl⟩
  | vU16 n =>
      exact ⟨stk, deserialize_scalar_inv t _ ⟨stk, c :: rest⟩ ""
        (deGetItem_self hlk) hty hde rfl, fun k _ => rfl⟩
  | vU32 n =>
      exact ⟨stk, deserialize_scalar_inv t _ ⟨stk, c :: rest⟩ ""
        (deGetItem_self hlk) hty hde rfl, fun k _ => rfl⟩
  | vU64 n =>
      exact ⟨stk, deserialize_scalar_inv t _ ⟨stk, c :: rest⟩ ""
        (deGetItem_self hlk) hty hde rfl, fun k _ => rfl⟩
  | vU128 n =>
      exact ⟨stk, deserialize_scalar_inv t _ ⟨stk, c :: rest⟩ ""
        (deGetItem_self hlk) hty hde rfl, fun k _ => rfl⟩
  | vI8 z =>
      exact ⟨stk, deserialize_scalar_inv t _ ⟨stk, c :: rest⟩ ""
        (deGetItem_self hlk) hty hde rfl, fun k _ => rfl⟩
  | vI16 z =>
      exact ⟨stk, deserialize_scalar_inv t _ ⟨stk, c :: rest⟩ ""
        (deGetItem_self hlk) hty hde rfl, fun k _ => rfl⟩
  | vI32 z =>
      exact ⟨stk, deserialize_scalar_inv t _ ⟨stk, c :: rest⟩ ""
        (deGetItem_self hlk) hty hde rfl, fun k _ => rfl⟩
  | vI64 z =>
      exact ⟨stk, deserialize_scalar_inv t _ ⟨stk, c :: rest⟩ ""
        (deGetItem_self hlk) hty hde rfl, fun k _ => rfl⟩
  | vI128 z =>
      exact ⟨stk, deserialize_scalar_inv t _ ⟨stk, c :: rest⟩ ""
        (deGetItem_self hlk) hty hde rfl, fun k _ => rfl⟩
  | vF32 q =>
      exact ⟨stk, deserialize_scalar_inv t _ ⟨stk, c :: rest⟩ ""
        (deGetItem_self hlk) hty hde rfl, fun k _ => rfl⟩
  | vF64 q =>
      exact ⟨stk, deserialize_scalar_inv t _ ⟨stk, c :: rest⟩ ""
        (deGetItem_self hlk) hty hde rfl, fun k _ => rfl⟩
  | vStr sv =>
      exact ⟨stk, deserialize_scalar_inv t _ ⟨stk, c :: rest⟩ ""
        (deGetItem_self hlk) hty hde rfl, fun k _ => rfl⟩
  | vBytes bs =>
      exact ⟨stk, deserialize_scalar_inv t _ ⟨stk, c :: rest⟩ ""
        (deGetItem_self hlk) hty hde rfl, fun k _ => rfl⟩
  | vStruct fs =>
      cases t <;> simp only [hasTy, Bool.false_eq_true] at hty
      rename_i tfs
      have hwff : wfFieldsN anc fs = true := by simpa [wfNames] using hwf
      have hdeS : (ciDistinct (fs.map Prod.fst) && deOkFields fs) = true := by
        simpa [deOk] using hde
      have hnd : ciDistinct (fs.map Prod.fst) = true :=
        ((Bool.and_eq_true _ _).mp hdeS).1
      have hdef : deOkFields fs = true := ((Bool.and_eq_true _ _).mp hdeS).2
      obtain ⟨stk2, hrun, hpres⟩ :=
        deFields_named anc fs tfs c rest stk (pureFields fs) hanc hcl
          (by simpa [pureSer] using hlk)
          (fun n2 v2 hmem => getField_pureFields hnd hmem)
          hty hdef hwff
      refine ⟨stk2, ?_, hpres⟩
      simp only [deVisit]
      rw [show deserialize_struct_start ⟨stk, c :: rest⟩ ""
          = .ok ⟨stk, c :: rest⟩ from rfl]
      simp only [ebind_ok]
      rw [hrun]
      simp
  | vArr es => simp [isSeq] at hseq
  | vVec es => simp [isSeq] at hseq

theorem deFields_named (anc : List String) (fl : List (String × TVal))
    (tfs : List (String × Ty)) (c : String) (rest : List String)
    (stk : List (String × JNode)) (gs : List (String × JNode))
    (hanc : ancOk anc) (hcl : liveN anc c)
    (hlk : lookupB stk c = some (.jobj gs))
    (hgets : ∀ n v, (n, v) ∈ fl → getField gs n = some (pureSer v))
    (htyf : hasTyF fl tfs = true) (hdef : deOkFields fl = true)
    (hwff : wfFieldsN anc fl = true) :
    ∃ stk2, deFieldsGo tfs ⟨stk, c :: rest⟩ = .ok (fl, ⟨stk2, c :: rest⟩)
      ∧ ∀ k, liveN anc k → lookupB stk2 k = lookupB stk k := by
  cases fl with
  | nil =>
      cases tfs with
      | nil => exact ⟨stk, rfl, fun k _ => rfl⟩
      | cons hdt ttl => simp [hasTyF] at htyf
  | cons hdv tl =>
      obtain ⟨n, v⟩ := hdv
      cases tfs with
      | nil => simp [hasTyF] at htyf
      | cons hdt ttl =>
          obtain ⟨m, t⟩ := hdt
          simp only [hasTyF, Bool.and_eq_true, beq_iff_eq] at htyf
          obtain ⟨⟨hnm, hty⟩, htytl⟩ := htyf
          subst hnm
          simp only [wfFieldsN, Bool.and_eq_true] at hwff
          obtain ⟨⟨⟨hident, hnr⟩, hwfv⟩, hwtl⟩ := hwff
          simp only [deOkFields, Bool.and_eq_true] at hdef
          obtain ⟨hdev, hdetl⟩ := hdef
          have hnest2 : isNest v = true → n ∉ anc := by
            intro hv
            rcases (Bool.or_eq_true _ _).mp hnr with hh | hh
            · rw [hv] at hh
              simp at hh
            · simpa using hh
          obtain ⟨stk1, hrun1, hpres1⟩ :=
            deVisit_named anc t v n c rest stk gs hanc hcl hlk
              (hgets n v (List.mem_cons_self _ _)) hty hdev hwfv hident hnest2
          have hlk1 : lookupB stk1 c = some (.jobj gs) := by
            rw [hpres1 c hcl]; exact hlk
          obtain ⟨stk2, hrun2, hpres2⟩ :=
            deFields_named anc tl ttl c rest stk1 gs hanc hcl hlk1
              (fun n2 v2 hm => hgets n2 v2 (List.mem_cons_of_mem _ hm))
              htytl hdetl hwtl
          refine ⟨stk2, ?_, fun k hk => by rw [hpres2 k hk, hpres1 k hk]⟩
          simp only [deFieldsGo]
          rw [hrun1]
          simp only [ebind_ok]
          rw [hrun2]
          simp only [ebind_ok]

theorem deVecLoop_spec (anc : List String) (te : Ty) (es : List TVal)
    (name c : String) (rest : List String) (stk : List (String × JNode)) (i : ℕ)
    (hanc : ancOk anc) (hname : identLike name = true) (hnin : name ∉ anc)
    (htyl : hasTyL es te = true) (hdel : deOkElems es = true)
    (hwfl : wfElemsN (name :: anc) es = true) :
    ∃ stk2,
      deVecLoop (fun s2 => deVisit te "" s2) name i (pureElems es) ⟨stk, c :: rest⟩
        = .ok (es, ⟨stk2, c :: rest⟩)
      ∧ ∀ k, liveN anc k → lookupB stk2 k = lookupB stk k := by
  cases es with
  | nil => exact ⟨stk, rfl, fun k _ => rfl⟩
  | cons e tl =>
      simp only [wfElemsN, Bool.and_eq_true] at hwfl
      obtain ⟨⟨hseq, hwfe⟩, hwtl⟩ := hwfl
      simp only [hasTyL, Bool.and_eq_true] at htyl
      obtain ⟨htye, htytl⟩ := htyl
      simp only [deOkElems, Bool.and_eq_true] at hdel
      obtain ⟨hdee, hdetl⟩ := hdel
      have hnb := identLike_no_bracket hname
      obtain ⟨stk1, hrun1, hpres1⟩ :=
        deVisit_self (name :: anc) te e (elemKey name i) (c :: rest)
          (insertB stk (elemKey name i) (pureSer e))
          (ancOk_cons hanc hnb) (liveN_elemKey (List.mem_cons_self _ _) i)
          (lookupB_insertB_self _ _ _) htye hdee hwfe (by simpa using hseq)
      obtain ⟨stk2, hrun2, hpres2⟩ :=
        deVecLoop_spec anc te tl name c rest (eraseB stk1 (elemKey name i)) (i + 1)
          hanc hname hnin htytl hdetl hwtl
      refine ⟨stk2, ?_, ?_⟩
      · simp only [pureElems, deVecLoop]
        rw [hrun1]
        simp only [ebind_ok]
        rw [hrun2]
        simp only [ebind_ok]
      · intro k hk
        have hfr := liveN_ne_fresh hanc hnin hnb k hk
        rw [hpres2 k hk, lookupB_eraseB_ne _ _ _ (hfr.2 i),
          hpres1 k (liveN_mono (fun x hx => List.mem_cons_of_mem _ hx) k hk),
          lookupB_insertB_ne _ _ _ _ (hfr.2 i)]

end

/-- The deserializer pipeline on the tree a well-formed record
serializes to recovers the record exactly. -/
theorem fromJsonTree_pure (fs : List (String × TVal)) (tfs : List (String × Ty))
    (htyf : hasTyF fs tfs = true)
    (hnd : ciDistinct (fs.map Prod.fst) = true)
    (hdef : deOkFields fs = true)
    (hwf : wfFieldsN [""] fs = true) :
    fromJsonTree (.tStruct tfs) (.jobj (pureFields fs)) = .ok (.vStruct fs) := by
  have hde : deOk (.vStruct fs) = true := by
    simp only [deOk, Bool.and_eq_true]
    exact ⟨hnd, hdef⟩
  obtain ⟨stk2, hrun, hpres⟩ :=
    deVisit_self [""] (.tStruct tfs) (.vStruct fs) "" [] [("", .jobj (pureFields fs))]
      (fun a ha => by
        rcases List.mem_singleton.mp ha with h
        subst h
        simp)
      (liveN_base (List.mem_cons_self _ _))
      (by simp [lookupB, pureSer])
      (by simpa [hasTy] using htyf) hde
      (by simpa [wfNames] using hwf) rfl
  simp only [fromJsonTree, deSeed]
  rw [hrun]
  simp only [ebind_ok]

/-! ## Support lemmas for the claims -/

/-- Serialized fields carry exactly the source field names, in order. -/
theorem pureFields_fst (fs : List (String × TVal)) :
    (pureFields fs).map Prod.fst = fs.map Prod.fst := by
  induction fs with
  | nil => rfl
  | cons hd tl ih =>
      obtain ⟨n, v⟩ := hd
      simp [pureFields, ih]

/-- Case-insensitively distinct names are in particular distinct. -/
theorem ciDistinct_nodup (l : List String) (h : ciDistinct l = true) : l.Nodup := by
  induction l with
  | nil => exact List.nodup_nil
  | cons x xs ih =>
      simp only [ciDistinct, Bool.and_eq_true, List.all_eq_true] at h
      refine List.nodup_cons.mpr ⟨fun hmem => ?_, ih h.2⟩
      have hx := h.1 x hmem
      simp [ciEq_refl] at hx

/-- A successful element loop returns exactly one value per input node. -/
theorem deVecLoop_length (f : DeState → Except CJsonError (TVal × DeState)) (name : String) :
    ∀ (xs : List JNode) (i : ℕ) (s : DeState) (es : List TVal) (s1 : DeState),
      deVecLoop f name i xs s = .ok (es, s1) → es.length = xs.length := by
  intro xs
  induction xs with
  | nil =>
      intro i s es s1 h
      simp only [deVecLoop, Except.ok.injEq, Prod.mk.injEq] at h
      rw [← h.1]
      rfl
  | cons x rest ih =>
      intro i s es s1 h
      simp only [deVecLoop] at h
      cases hf : f ⟨insertB s.stack (elemKey name i) x, elemKey name i :: s.stack_name⟩ with
      | error e => rw [hf] at h; simp only [ebind_err] at h; cases h
      | ok p =>
          obtain ⟨v, s2⟩ := p
          rw [hf] at h
          simp only [ebind_ok] at h
          cases hsn : s2.stack_name with
          | nil => rw [hsn] at h; simp at h
          | cons last restN =>
              rw [hsn] at h
              dsimp only at h
              cases hr : deVecLoop f name (i + 1) rest ⟨eraseB s2.stack last, restN⟩ with
              | error e => rw [hr] at h; simp only [ebind_err] at h; cases h
              | ok p2 =>
                  obtain ⟨vs, s4⟩ := p2
                  rw [hr] at h
                  simp only [ebind_ok, Except.ok.injEq, Prod.mk.injEq] at h
                  rw [← h.1]
                  simp [ih (i + 1) _ vs s4 hr]

/-- The 64-bit cast saturates into the `u64` range. -/
theorem castU64_le (q : ℚ) : castU64 q ≤ 2 ^ 64 - 1 := min_le_right _ _

/-- The 64-bit signed cast saturates into the `i64` range. -/
theorem castI64_range (q : ℚ) : -(2 ^ 63) ≤ castI64 q ∧ castI64 q ≤ 2 ^ 63 - 1 :=
  ⟨le_max_left _ _, max_le (by norm_num) (min_le_right _ _)⟩

/-- Above the `u64` range the cast clamps to `u64::MAX` (no error). -/
theorem castU64_sat (q : ℚ) (h : ((2 : ℚ) ^ 64 - 1) ≤ q) : castU64 q = 2 ^ 64 - 1 := by
  have h0 : (0 : ℚ) ≤ q := le_trans (by norm_num) h
  have h2 : ((2 ^ 64 - 1 : ℤ) : ℚ) ≤ q := by exact_mod_cast h
  have h3 : (2 ^ 64 - 1 : ℤ) ≤ Int.floor q := Int.le_floor.mpr h2
  simp only [castU64, truncQ, if_pos h0]
  rw [min_eq_right (by omega)]

/-- Within the range, `f64 as u64` truncates toward zero: the result is
within 1 below the (nonnegative) input. -/
theorem castU64_trunc (q : ℚ) (h0 : 0 ≤ q) (hle : q ≤ (2 : ℚ) ^ 64 - 1) :
    ((castU64 q : ℕ) : ℚ) ≤ q ∧ q - 1 < ((castU64 q : ℕ) : ℚ) := by
  have hf0 : 0 ≤ Int.floor q := Int.floor_nonneg.mpr h0
  have hfle : Int.floor q ≤ (2 ^ 64 - 1 : ℤ) := by
    have h1 : ((Int.floor q : ℤ) : ℚ) ≤ ((2 ^ 64 - 1 : ℤ) : ℚ) :=
      le_trans (Int.floor_le q) (by exact_mod_cast hle)
    exact_mod_cast h1
  have hcu : castU64 q = (Int.floor q).toNat := by
    simp only [castU64, truncQ, if_pos h0]
    exact min_eq_left (by omega)
  have hz : ((Int.floor q).toNat : ℤ) = Int.floor q := Int.toNat_of_nonneg hf0
  have htn : (((Int.floor q).toNat : ℕ) : ℚ) = ((Int.floor q : ℤ) : ℚ) := by
    exact_mod_cast hz
  rw [hcu]
  constructor
  · rw [htn]
    exact Int.floor_le q
  · rw [htn]
    have hlt := Int.lt_floor_add_one q
    linarith

/-- A successful unsigned 64-bit read is within the `u64` range. -/
theorem deserialize_u64_ok_le {s : DeState} {name : String} {n : ℕ}
    (h : deserialize_u64 s name = .ok n) : n ≤ 2 ^ 64 - 1 := by
  simp only [deserialize_u64] at h
  cases hx : deGetItem s name with
  | error e => rw [hx] at h; simp only [ebind_err] at h; cases h
  | ok item =>
      rw [hx] at h
      simp only [ebind_ok] at h
      cases hy : item.get_number_value with
      | error e => rw [hy] at h; simp only [ebind_err] at h; cases h
      | ok q =>
          rw [hy] at h
          simp only [ebind_ok] at h
          by_cases hq : q < 0
          · rw [if_pos hq] at h; cases h
          · rw [if_neg hq] at h
            obtain rfl : castU64 q = n := by simpa using h
            exact castU64_le q

/-- A successful signed 64-bit read is within the `i64` range. -/
theorem deserialize_i64_ok_range {s : DeState} {name : String} {z : ℤ}
    (h : deserialize_i64 s name = .ok z) :
    -(2 ^ 63) ≤ z ∧ z ≤ 2 ^ 63 - 1 := by
  simp only [deserialize_i64] at h
  cases hx : deGetItem s name with
  | error e => rw [hx] at h; simp only [ebind_err] at h; cases h
  | ok item =>
      rw [hx] at h
      simp only [ebind_ok] at h
      cases hy : item.get_number_value with
      | error e => rw [hy] at h; simp only [ebind_err] at h; cases h
      | ok q =>
          rw [hy] at h
          simp only [ebind_ok] at h
          obtain rfl : castI64 q = z := by simpa using h
          exact castI64_range q

/-! ## The claims -/

/-- C1: The round-trip law `from_json(to_json(v)) == v` as stated does
not hold for every supported typed value (see the counterexample); it
holds for every record whose 64/128-bit integers are within the
exactly-representable double range, whose `f32` values are fixed points
of the single-precision rounding, whose field names are distinct under
the case-insensitive cJSON lookup, and which obeys the name discipline
`wfFieldsN` (identifier-like NUL-free names, no reuse of a live context
name by a nested field, NUL-free string values, no sequence directly
inside a sequence). -/
theorem C1_roundtrip (fs : List (String × TVal)) (tfs : List (String × Ty))
    (htyf : hasTyF fs tfs = true)
    (hnd : ciDistinct (fs.map Prod.fst) = true)
    (hdef : deOkFields fs = true)
    (hwf : wfFieldsN [""] fs = true) :
    roundtrip (.tStruct tfs) (.vStruct fs) = .ok (.vStruct fs) := by
  simp only [roundtrip]
  rw [to_json_pure fs hwf]
  exact fromJsonTree_pure fs tfs htyf hnd hdef hwf

theorem C1_roundtrip_witness :
    (hasTyF demoFs demoTfs = true
      ∧ ciDistinct (demoFs.map Prod.fst) = true
      ∧ deOkFields demoFs = true
      ∧ wfFieldsN [""] demoFs = true)
    ∧ roundtrip (.tStruct demoTfs) (.vStruct demoFs) = .ok (.vStruct demoFs) :=
  ⟨⟨by decide, by decide, by decide, by decide⟩,
   C1_roundtrip demoFs demoTfs (by decide) (by decide) (by decide) (by decide)⟩

/-- C1 counterexample: the `u64` value `2^53 + 1` is a supported typed
value (it inhabits `u64`), but it round-trips to `2^53`: the serializer
stores numbers as C doubles, which cannot represent `2^53 + 1`. -/
theorem C1_counterexample :
    roundtrip (.tStruct [("x", .tU64)]) (.vStruct [("x", .vU64 9007199254740993)])
      = .ok (.vStruct [("x", .vU64 9007199254740992)])
    ∧ TVal.vStruct [("x", .vU64 9007199254740992)]
        ≠ .vStruct [("x", .vU64 9007199254740993)] := by
  refine ⟨rfl, fun h => ?_⟩
  simp only [TVal.vStruct.injEq, List.cons.injEq, Prod.mk.injEq, TVal.vU64.injEq,
    and_true] at h
  omega

/-- C2: Serializing a record with a fixed 2-element struct-array field
produces, under the no-reuse name discipline and case-insensitively
distinct field names, exactly one key for that field (the output keys
are the record's keys, in order, and the array's key occurs once), and
its value is a JSON array of exactly the two serialized element
objects. -/
theorem C2_array_fidelity (fs : List (String × TVal)) (aname : String)
    (g1 g2 : List (String × TVal))
    (hmem : (aname, TVal.vArr [.vStruct g1, .vStruct g2]) ∈ fs)
    (hnd : ciDistinct (fs.map Prod.fst) = true)
    (hwf : wfFieldsN [""] fs = true) :
    ∃ out, to_json (.vStruct fs) = .ok (.jobj out)
      ∧ out.map Prod.fst = fs.map Prod.fst
      ∧ List.count aname (fs.map Prod.fst) = 1
      ∧ getField out aname
          = some (.jarr [.jobj (pureFields g1), .jobj (pureFields g2)]) := by
  refine ⟨pureFields fs, to_json_pure fs hwf, pureFields_fst fs, ?_, ?_⟩
  · exact List.count_eq_one_of_mem (ciDistinct_nodup _ hnd)
      (List.mem_map.mpr ⟨_, hmem, rfl⟩)
  · have hg := getField_pureFields hnd hmem
    simpa [pureSer, pureElems] using hg

theorem C2_array_fidelity_witness :
    (("users", TVal.vArr [.vStruct userA, .vStruct userG]) ∈ demoFs
      ∧ ciDistinct (demoFs.map Prod.fst) = true
      ∧ wfFieldsN [""] demoFs = true)
    ∧ (∃ out, to_json (.vStruct demoFs) = .ok (.jobj out)
        ∧ out.map Prod.fst = demoFs.map Prod.fst
        ∧ List.count "users" (demoFs.map Prod.fst) = 1
        ∧ getField out "users"
            = some (.jarr [.jobj (pureFields userA), .jobj (pureFields userG)])) :=
  ⟨⟨by simp [demoFs], by decide, by decide⟩,
   C2_array_fidelity demoFs "users" userA userG (by simp [demoFs]) (by decide) (by decide)⟩

set_option maxHeartbeats 1600000 in
/-- C2 counterexample: when an element of the 2-element `users` struct
array itself has a sequence field named `users` -- legal Rust, and not
excluded by the claim -- the element's sequence start silently replaces
the live `users` map entry, and the serialized top-level `users` array
holds one corrupted object instead of two. -/
theorem C2_counterexample :
    to_json (.vStruct nastyFs) = .ok (.jobj [("users", .jarr nastyTop)])
    ∧ nastyTop.length = 1 := ⟨rfl, rfl⟩

/-- C3: `deserialize_struct_end` leaves the state unchanged when at
most the root context entry remains, and otherwise pops the top entry
and removes it from the map; on the spec's struct-in-array-in-struct
scenario the deserializer therefore succeeds and recovers both user
records in order, with no `InvalidOperation`. -/
theorem C3_struct_end_guard :
    (∀ stk : List (String × JNode), deserialize_struct_end ⟨stk, []⟩ = .ok ⟨stk, []⟩)
    ∧ (∀ (stk : List (String × JNode)) (n : String),
        deserialize_struct_end ⟨stk, [n]⟩ = .ok ⟨stk, [n]⟩)
    ∧ (∀ (stk : List (String × JNode)) (n m : String) (restN : List String),
        deserialize_struct_end ⟨stk, n :: m :: restN⟩ = .ok ⟨eraseB stk n, m :: restN⟩)
    ∧ fromJsonTree cfgTy usersTree
        = .ok (.vStruct [("users", .vArr [.vStruct userA, .vStruct userG])]) := by
  refine ⟨fun stk => rfl, fun stk n => rfl, fun stk n m restN => ?_, rfl⟩
  simp only [deserialize_struct_end, List.length_cons]
  rw [if_pos (by omega)]

/-- C4: Reading a fixed-size-`n` array from a JSON array node of `xs.length`
elements, when every element reads back (the loop succeeds), yields
`InvalidOperation` exactly when `xs.length ≠ n`, and the collected
elements unchanged (no truncation or padding) when `xs.length = n`. -/
theorem C4_fixed_array_length (te : Ty) (n : ℕ) (name : String) (s : DeState)
    (xs : List JNode) (es : List TVal) (s1 : DeState)
    (hitem : deGetItem s name = .ok (.jarr xs))
    (hloop : deVecLoop (fun s2 => deVisit te "" s2) name 0 xs s = .ok (es, s1)) :
    deVisit (.tArr te n) name s
      = if xs.length = n then .ok (.vArr es, s1) else .error .invalidOperation := by
  have hlen : es.length = xs.length := deVecLoop_length _ _ xs 0 s es s1 hloop
  simp only [deVisit, deserialize_vecT, hitem, ebind_ok]
  rw [hloop]
  simp only [ebind_ok, hlen]

theorem C4_fixed_array_length_witness :
    (deGetItem (deSeed c4tree) "" = .ok (.jarr [.jnum 1, .jnum 2])
      ∧ deVecLoop (fun s2 => deVisit .tU8 "" s2) "" 0 [.jnum 1, .jnum 2] (deSeed c4tree)
          = .ok ([.vU8 1, .vU8 2], deSeed c4tree))
    ∧ deVisit (.tArr .tU8 3) "" (deSeed c4tree) = .error .invalidOperation
    ∧ deVisit (.tArr .tU8 2) "" (deSeed c4tree)
        = .ok (.vArr [.vU8 1, .vU8 2], deSeed c4tree) := by
  refine ⟨⟨rfl, rfl⟩, ?_, ?_⟩
  · rw [C4_fixed_array_length .tU8 3 "" (deSeed c4tree) [.jnum 1, .jnum 2]
      [.vU8 1, .vU8 2] (deSeed c4tree) rfl rfl]
    rfl
  · rw [C4_fixed_array_length .tU8 2 "" (deSeed c4tree) [.jnum 1, .jnum 2]
      [.vU8 1, .vU8 2] (deSeed c4tree) rfl rfl]
    rfl

/-- C5: The claim's range validation holds for the narrow widths, which
read through the 64-bit read and then range-check: a number whose
64-bit cast is out of the narrow destination range is a `TypeError`
(concretely, 300 into `u8`).  It does not hold for the 64/128-bit
widths themselves (see the counterexample): there the cast saturates
silently. -/
theorem C5_narrow_range :
    (∀ (s : DeState) (name : String) (q : ℚ), deGetItem s name = .ok (.jnum q) →
      ¬ q < 0 → 255 < castU64 q → deserialize_u8 s name = .error .typeError)
    ∧ (∀ (s : DeState) (name : String) (q : ℚ), deGetItem s name = .ok (.jnum q) →
      ¬ q < 0 → 65535 < castU64 q → deserialize_u16 s name = .error .typeError)
    ∧ (∀ (s : DeState) (name : String) (q : ℚ), deGetItem s name = .ok (.jnum q) →
      ¬ q < 0 → 4294967295 < castU64 q → deserialize_u32 s name = .error .typeError)
    ∧ (∀ (s : DeState) (name : String) (q : ℚ), deGetItem s name = .ok (.jnum q) →
      castI64 q < -128 ∨ 127 < castI64 q → deserialize_i8 s name = .error .typeError)
    ∧ (∀ (s : DeState) (name : String) (q : ℚ), deGetItem s name = .ok (.jnum q) →
      castI64 q < -32768 ∨ 32767 < castI64 q → deserialize_i16 s name = .error .typeError)
    ∧ (∀ (s : DeState) (name : String) (q : ℚ), deGetItem s name = .ok (.jnum q) →
      castI64 q < -2147483648 ∨ 2147483647 < castI64 q →
      deserialize_i32 s name = .error .typeError) := by
  refine ⟨fun s name q hitem hq hbig => ?_, fun s name q hitem hq hbig => ?_,
    fun s name q hitem hq hbig => ?_, fun s name q hitem hbig => ?_,
    fun s name q hitem hbig => ?_, fun s name q hitem hbig => ?_⟩
  · simp only [deserialize_u8, deserialize_u64, hitem, ebind_ok,
      JNode.get_number_value, if_neg hq]
    rw [if_neg (by omega)]
  · simp only [deserialize_u16, deserialize_u64, hitem, ebind_ok,
      JNode.get_number_value, if_neg hq]
    rw [if_neg (by omega)]
  · simp only [deserialize_u32, deserialize_u64, hitem, ebind_ok,
      JNode.get_number_value, if_neg hq]
    rw [if_neg (by omega)]
  · simp only [deserialize_i8, deserialize_i64, hitem, ebind_ok,
      JNode.get_number_value]
    rw [if_neg (by omega)]
  · simp only [deserialize_i16, deserialize_i64, hitem, ebind_ok,
      JNode.get_number_value]
    rw [if_neg (by omega)]
  · simp only [deserialize_i32, deserialize_i64, hitem, ebind_ok,
      JNode.get_number_value]
    rw [if_neg (by omega)]

theorem C5_narrow_range_witness :
    (deGetItem (deSeed (.jnum 300)) "" = .ok (.jnum 300)
      ∧ ¬ (300 : ℚ) < 0 ∧ 255 < castU64 300)
    ∧ deserialize_u8 (deSeed (.jnum 300)) "" = .error .typeError
    ∧ deserialize_u16 (deSeed (.jnum 70000)) "" = .error .typeError
    ∧ deserialize_u32 (deSeed (.jnum 4294967296)) "" = .error .typeError
    ∧ deserialize_i8 (deSeed (.jnum (-200))) "" = .error .typeError
    ∧ deserialize_i16 (deSeed (.jnum 40000)) "" = .error .typeError
    ∧ deserialize_i32 (deSeed (.jnum 2147483648)) "" = .error .typeError :=
  ⟨⟨rfl, by decide, by decide⟩,
   C5_narrow_range.1 _ "" 300 rfl (by decide) (by decide),
   C5_narrow_range.2.1 _ "" 70000 rfl (by decide) (by decide),
   C5_narrow_range.2.2.1 _ "" 4294967296 rfl (by decide) (by decide),
   C5_narrow_range.2.2.2.1 _ "" (-200) rfl (Or.inl (by decide)),
   C5_narrow_range.2.2.2.2.1 _ "" 40000 rfl (Or.inr (by decide)),
   C5_narrow_range.2.2.2.2.2 _ "" 2147483648 rfl (Or.inr (by decide))⟩

/-- C5 counterexample: for the 64-bit destination width itself the
out-of-range number `2^64` does not fail with `TypeError`: the
float-to-integer cast saturates and the read succeeds with
`u64::MAX`. -/
theorem C5_counterexample :
    deserialize_u64 (deSeed (.jnum 18446744073709551616)) "" = .ok (2 ^ 64 - 1)
    ∧ (2 ^ 64 - 1 : ℕ) ≠ 18446744073709551616 := ⟨rfl, by norm_num⟩

/-- C6: A byte buffer of `n` bytes serializes to a string of exactly
`2 * n` characters, all of them lowercase hexadecimal digits; the
all-zero 32-byte buffer yields the 64-character all-`0` string, and the
full round trip through serialization and deserialization reproduces
the identical buffer. -/
theorem C6_bytes_hex :
    (∀ bs : List ℕ, (hexStr bs).data.length = 2 * bs.length)
    ∧ (∀ bs : List ℕ, ∀ c ∈ (hexStr bs).data, isLowerHexDigit c = true)
    ∧ (hexStr (List.replicate 32 0)).data = List.replicate 64 '0'
    ∧ roundtrip (.tStruct [("data", .tBytes 32)])
        (.vStruct [("data", .vBytes (List.replicate 32 0))])
        = .ok (.vStruct [("data", .vBytes (List.replicate 32 0))]) := by
  refine ⟨fun bs => hexStr_length bs, hexStr_chars, rfl, ?_⟩
  · simp only [roundtrip]
    rw [to_json_pure _ (by decide)]
    exact fromJsonTree_pure [("data", .vBytes (List.replicate 32 0))]
      [("data", .tBytes 32)] (by decide) (by decide) (by decide) (by decide)

theorem C6_bytes_hex_witness :
    (hexStr [171, 205]).data.length = 2 * 2
    ∧ isLowerHexDigit 'a' = true :=
  ⟨C6_bytes_hex.1 [171, 205], C6_bytes_hex.2.1 [171] 'a' (by decide)⟩

/-- C7: Contrary to the claim, the serializer's `serialize_struct_end`
can never fail: it is an unconditional `stack_name.pop()` followed by
`Ok(())` -- popping the last (root) entry included.  On every state it
succeeds, removing the top context name and leaving the trees and the
pointer map untouched. -/
theorem C7_struct_end_total (s : SerState) :
    ∃ s2, serialize_struct_end s = .ok s2
      ∧ s2.stack_name = s.stack_name.tail
      ∧ s2.roots = s.roots ∧ s2.stack = s.stack :=
  ⟨_, rfl, rfl, rfl, rfl⟩

/-- C7 counterexample: on the state where only the root context name
remains -- where the claim requires an error -- `serialize_struct_end`
succeeds and pops the root, leaving the name stack empty. -/
theorem C7_counterexample :
    serialize_struct_end ⟨[.jobj []], [("", (0, []))], [""]⟩
      = .ok ⟨[.jobj []], [("", (0, []))], []⟩ := rfl

/-- C8: Contrary to the claim, text the external `cJSON_Parse` rejects
(it returns the null pointer) surfaces as `NullPointer`, not as the
error type's dedicated `ParseError` kind: `CJson::from_ptr` maps the
null pointer before any parse-specific error can be reported.  (NUL-free
text; interior NUL fails even earlier, as `InvalidUtf8` from
`CString::new`.) -/
theorem C8_parse_error_kind (t : Ty) (json : String) (hnul : hasNul json = false) :
    from_json_text t json none = .error .nullPointer := by
  simp [from_json_text, deserializer_parse, cjson_parse, hnul]

theorem C8_parse_error_kind_witness :
    hasNul "not json" = false
    ∧ from_json_text .tBool "not json" none = .error .nullPointer :=
  ⟨rfl, C8_parse_error_kind .tBool "not json" rfl⟩

/-- C8 counterexample: on the malformed input `"{"` the pipeline
reports `NullPointer`, and `NullPointer` is not the error enum's
distinct parse-error kind `ParseError`. -/
theorem C8_counterexample :
    from_json_text .tU8 "\x7b" none = .error .nullPointer
    ∧ CJsonError.nullPointer ≠ CJsonError.parseError := ⟨rfl, by decide⟩

/-- C9: Contrary to the claim, pushing a context under a name that
already has a live entry is not an error: `deserialize_struct_start`
looks the field up in the current context object and `BTreeMap::insert`s
it under its bare name unconditionally, silently replacing an existing
live entry with that name (the new mapping is what subsequent lookups
see). -/
theorem C9_push_overwrites (stk : List (String × JNode)) (cur name : String)
    (restN : List String) (gs : List (String × JNode)) (x : JNode)
    (hlk : lookupB stk cur = some (.jobj gs))
    (hget : getField gs name = some x)
    (hne : name ≠ "") (hnul : hasNul name = false) :
    deserialize_struct_start ⟨stk, cur :: restN⟩ name
      = .ok ⟨insertB stk name x, name :: cur :: restN⟩
    ∧ lookupB (insertB stk name x) name = some x :=
  ⟨deserialize_struct_start_named name hlk hget hne hnul,
   lookupB_insertB_self _ _ _⟩

theorem C9_push_overwrites_witness :
    (lookupB c9stk "b" = some (.jobj [("b", .jobj [("x", .jbool true)]), ("y", .jnum 1)])
      ∧ getField [("b", .jobj [("x", .jbool true)]), ("y", .jnum 1)] "b"
          = some (.jobj [("x", .jbool true)])
      ∧ "b" ≠ "" ∧ hasNul "b" = false)
    ∧ deserialize_struct_start ⟨c9stk, ["b", ""]⟩ "b"
        = .ok ⟨insertB c9stk "b" (.jobj [("x", .jbool true)]), ["b", "b", ""]⟩
    ∧ lookupB (insertB c9stk "b" (.jobj [("x", .jbool true)])) "b"
        = some (.jobj [("x", .jbool true)]) := by
  have h := C9_push_overwrites c9stk "b" "b" [""]
    [("b", .jobj [("x", .jbool true)]), ("y", .jnum 1)] (.jobj [("x", .jbool true)])
    rfl rfl (by decide) rfl
  exact ⟨⟨rfl, rfl, by decide, rfl⟩, h.1, h.2⟩

/-- C9 counterexample: in the state reached after `begin_struct("b")`
whose context object again has a field `b`, the name `b` is live, yet a
second push of `b` succeeds -- where the claim requires an error -- and
silently replaces the live map entry (the old and new values differ). -/
theorem C9_counterexample :
    deserialize_struct_start ⟨c9stk, ["b", ""]⟩ "b"
      = .ok ⟨[("", c9root), ("b", .jobj [("x", .jbool true)])], ["b", "b", ""]⟩
    ∧ lookupB c9stk "b" = some c9inner
    ∧ c9inner ≠ .jobj [("x", .jbool true)] := by
  refine ⟨rfl, rfl, fun h => ?_⟩
  simp [c9inner] at h

/-- C10: The unsigned 64-bit read requires a Number node: a negative
value is a `TypeError`; otherwise it returns the `f64 as u64` cast of
the value, which never exceeds `u64::MAX` (values above saturate to it,
with no error) and truncates fractional values toward zero; the 128-bit
reads are exactly the widened 64-bit reads, so a successful `u128` read
never exceeds `u64::MAX` and a successful `i128` read stays within the
`i64` range. -/
theorem C10_u64_read :
    (∀ (s : DeState) (name : String) (q : ℚ), deGetItem s name = .ok (.jnum q) →
      q < 0 → deserialize_u64 s name = .error .typeError)
    ∧ (∀ (s : DeState) (name : String) (q : ℚ), deGetItem s name = .ok (.jnum q) →
      ¬ q < 0 → deserialize_u64 s name = .ok (castU64 q))
    ∧ (∀ q : ℚ, ((2 : ℚ) ^ 64 - 1) ≤ q → castU64 q = 2 ^ 64 - 1)
    ∧ (∀ q : ℚ, 0 ≤ q → q ≤ (2 : ℚ) ^ 64 - 1 →
      ((castU64 q : ℕ) : ℚ) ≤ q ∧ q - 1 < ((castU64 q : ℕ) : ℚ))
    ∧ (∀ (s : DeState) (name : String), deserialize_u128 s name = deserialize_u64 s name)
    ∧ (∀ (s : DeState) (name : String), deserialize_i128 s name = deserialize_i64 s name)
    ∧ (∀ (s : DeState) (name : String) (n : ℕ), deserialize_u128 s name = .ok n →
      n ≤ 2 ^ 64 - 1)
    ∧ (∀ (s : DeState) (name : String) (z : ℤ), deserialize_i128 s name = .ok z →
      -(2 ^ 63) ≤ z ∧ z ≤ 2 ^ 63 - 1) := by
  refine ⟨fun s name q hitem hq => ?_, fun s name q hitem hq => ?_,
    castU64_sat, castU64_trunc, fun s name => rfl, fun s name => rfl,
    fun s name n h => deserialize_u64_ok_le h,
    fun s name z h => deserialize_i64_ok_range h⟩
  · simp [deserialize_u64, hitem, JNode.get_number_value, hq]
  · simp [deserialize_u64, hitem, JNode.get_number_value, hq]

theorem C10_u64_read_witness :
    (deGetItem (deSeed (.jnum (-3))) "" = .ok (.jnum (-3)) ∧ ((-3 : ℚ) < 0))
    ∧ deserialize_u64 (deSeed (.jnum (-3))) "" = .error .typeError
    ∧ deserialize_u64 (deSeed (.jnum (Rat.divInt 5 2))) ""
        = .ok (castU64 (Rat.divInt 5 2))
    ∧ castU64 (Rat.divInt 5 2) = 2
    ∧ castU64 18446744073709551616 = 2 ^ 64 - 1
    ∧ ((castU64 2 : ℕ) : ℚ) ≤ 2 ∧ (2 : ℚ) - 1 < ((castU64 2 : ℕ) : ℚ)
    ∧ (7 : ℕ) ≤ 2 ^ 64 - 1
    ∧ (-(2 ^ 63) : ℤ) ≤ -5 ∧ (-5 : ℤ) ≤ 2 ^ 63 - 1 := by
  obtain ⟨ht1, ht2⟩ := C10_u64_read.2.2.2.1 2 (by norm_num) (by norm_num)
  have hi0 : deserialize_i128 (deSeed (.jnum (-5))) "" = .ok (-5) := rfl
  obtain ⟨hi1, hi2⟩ := C10_u64_read.2.2.2.2.2.2.2 (deSeed (.jnum (-5))) "" (-5) hi0
  exact ⟨⟨rfl, by decide⟩,
    C10_u64_read.1 _ "" (-3) rfl (by decide),
    C10_u64_read.2.1 _ "" (Rat.divInt 5 2) rfl (by decide),
    rfl,
    C10_u64_read.2.2.1 18446744073709551616 (by norm_num),
    ht1, ht2,
    C10_u64_read.2.2.2.2.2.2.1 (deSeed (.jnum 7)) "" 7
      (show deserialize_u128 (deSeed (.jnum 7)) "" = .ok 7 from rfl),
    hi1, hi2⟩

end CJB
